import Mathlib

/-!
Verification development for the `context-machine` analyzer service.

The Python sources under `services/analyzer-service/src` are shallowly
embedded as Lean definitions.  External engines are modelled as inputs:

* the tree-sitter grammar engine is external, so a grammar-path parse takes a
  concrete syntax tree (`TSNode`) as input, exactly the data the walk in the
  Python code consumes (node type, covered text, children);
* the Python `re` module is external, so regex-based extraction takes the
  lists of captured groups as input; the code that maps matches to symbols
  and relations is embedded faithfully;
* the filesystem walked by `os.walk` / `os.scandir` is modelled as a tree
  value, and the external graph store / websocket channel as the lists of
  payloads the code hands to them.

Python dictionaries are modelled as association lists with the same lookup
semantics (`dictSet` replaces the binding for an existing key), floats by
real numbers, and `None` by `Option`.
-/

set_option autoImplicit false
set_option maxRecDepth 10000

namespace ContextMachine

/-! ### Cross-file call resolver (`resolve_calls.py`)

`CallResolver.resolve_calls` walks the project, re-parses every supported
file and, for every relation of type `CALLS`, looks the relation's `source`
and `target` keys up in the previously loaded name-to-id symbol index.  An
edge is appended only when both lookups succeed.  The symbol index
(a Python dict) is modelled as a partial function `String → Option String`.
-/

/-- A relation record as produced by `BaseParser.rel`:
`{"type": rtype, "source": source, "target": target}`. -/
structure Rel where
  type : String
  source : String
  target : String
  deriving Repr, DecidableEq

/-- A resolved `CALLS` edge as appended by `CallResolver.resolve_calls`:
`{"source_id": ..., "target_id": ..., "type": "CALLS", ...}`. -/
structure CallEdge where
  source_id : String
  target_id : String
  deriving Repr, DecidableEq

/-- The body of the per-relation loop of `CallResolver.resolve_calls`:
`if rel.get("type") == "CALLS"` and both `rel["source"]` / `rel["target"]`
are keys of `symbol_index`, append a resolved edge, else do nothing. -/
def resolveStep (index : String → Option String) (acc : List CallEdge) (r : Rel) :
    List CallEdge :=
  if r.type = "CALLS" then
    match index r.source, index r.target with
    | some s, some t => acc ++ [⟨s, t⟩]
    | _, _ => acc
  else acc

/-- `CallResolver.resolve_calls`, restricted to the relation stream it
iterates over: the `CALLS` filtering and index lookups applied to the
concatenation of all extractor-produced relations. -/
def resolveCalls (index : String → Option String) (rels : List Rel) : List CallEdge :=
  rels.foldl (resolveStep index) []

/-- Whether `resolve_calls` would emit an edge for relation `r`. -/
def emits (index : String → Option String) (r : Rel) : Bool :=
  r.type == "CALLS" && (index r.source).isSome && (index r.target).isSome

/-- The demonstration symbol index for the spec's call-resolution scenario:
it contains both the calling scope's key and the name `foo`. -/
def demoIndex : String → Option String := fun n =>
  if n = "b.py::caller" then some "id-caller"
  else if n = "foo" then some "id-foo"
  else none

/-- The same index with `foo` missing. -/
def demoIndexNoFoo : String → Option String := fun n =>
  if n = "b.py::caller" then some "id-caller" else none

/-! ### Single-file parse endpoint (`analyzer.py`, `parse_single`)

The handler reads `language`, `content` and `path` from the request body,
answers 400 when `language` or `content` is Python-falsy (absent or the
empty string), answers 400 when the lowercased language has no registered
parser, and only then invokes `parser.parse`.  The parser registry is
modelled as the set of supported language names, and the parse call itself
(together with its 500-on-exception wrapper) as the `ok` response
constructor carrying the arguments the parser would receive. -/

/-- Python truthiness of `data.get(key)` for a string field: `None` and the
empty string are falsy. -/
def pyTruthy (o : Option String) : Bool :=
  match o with
  | none => false
  | some s => !s.isEmpty

/-- The possible outcomes of `parse_single`.  `ok` means the parser was
invoked; both `missingFields` and `unsupported` are 400 responses returned
before any parser is touched. -/
inductive ParseResponse where
  | missingFields
  | unsupported (lang : String)
  | ok (lang : String) (content : String) (path : Option String)
  deriving Repr, DecidableEq

/-- `parse_single` from `analyzer.py`: the branch structure of the handler. -/
def parseSingle (registry : String → Bool) (language content path : Option String) :
    ParseResponse :=
  if !pyTruthy language || !pyTruthy content then .missingFields
  else
    let lang := (language.getD "").toLower
    if !registry lang then .unsupported lang
    else .ok lang (content.getD "") path

/-! ### Inverse-frequency edge weighting (`edge_weights.py`)

`EdgeWeightComputer.fit` counts the relations whose `"type"` field is
truthy, computes `raw(t) = log((N + smoothing) / (count(t) + smoothing))`
for every occurring type, takes the maximum (starting from `0.0`), and
normalizes by it when it is positive, otherwise assigns every occurring
type weight `1.0`.  `get_weight` returns `1.0` for unseen types.  Python
floats are modelled as real numbers. -/

/-- The sub-list of relations counted by `fit` (`if edge_type:`). -/
def typedRels (rels : List Rel) : List Rel :=
  rels.filter (fun r => !r.type.isEmpty)

/-- `self.total_edges` after `fit`. -/
def totalEdges (rels : List Rel) : Nat :=
  (typedRels rels).length

/-- `self.edge_type_counts[t]` after `fit` (`0` when `t` is not a key). -/
def typeCount (rels : List Rel) (t : String) : Nat :=
  (typedRels rels).countP (fun r => r.type == t)

/-- The keys of `self.edge_type_counts` (each occurring truthy type once). -/
def edgeTypes (rels : List Rel) : List String :=
  ((typedRels rels).map (fun r => r.type)).dedup

/-- `raw_weight = math.log((self.total_edges + self.smoothing) / (count + self.smoothing))`. -/
noncomputable def rawWeight (rels : List Rel) (s : ℝ) (t : String) : ℝ :=
  Real.log (((totalEdges rels : ℝ) + s) / ((typeCount rels t : ℝ) + s))

/-- `max_weight`, accumulated over the counter entries starting from `0.0`. -/
noncomputable def maxWeight (rels : List Rel) (s : ℝ) : ℝ :=
  (edgeTypes rels).foldl (fun m t => max m (rawWeight rels s t)) 0

/-- `EdgeWeightComputer.get_weight` after `fit rels` with smoothing `s`:
the normalized weight for occurring types, `1.0` otherwise (empty fit,
unseen type, or the uniform-weights branch when `max_weight` is not
positive). -/
noncomputable def getWeight (rels : List Rel) (s : ℝ) (t : String) : ℝ :=
  if totalEdges rels = 0 then 1
  else if typeCount rels t = 0 then 1
  else if 0 < maxWeight rels s then rawWeight rels s t / maxWeight rels s
  else 1

/-! ### Multi-metric edge weighting (`edge_metrics.py`)

`MultiMetricEdgeWeighting.fit` skips relations whose `"type"` or
`"source"` is falsy, counts edge types and node in/out degrees, and stores
four `[0,1]` dimensions per distinct `(source, type, target)` key.
`get_combined_weight` is the weighted sum of the stored dimensions over the
caller-supplied dimension-weight entries (unknown dimension names are
skipped), clamped from above by `min(1.0, ...)`; an unfitted key scores
`0.5`. -/

/-- The `if not edge_type or not source: continue` filter of `fit`. -/
def validRel (r : Rel) : Bool :=
  !r.type.isEmpty && !r.source.isEmpty

/-- The relations `fit` actually processes. -/
def mRels (rels : List Rel) : List Rel :=
  rels.filter validRel

/-- `self.edge_counts[t]` after `fit`. -/
def edgeCountM (rels : List Rel) (t : String) : Nat :=
  (mRels rels).countP (fun r => r.type == t)

/-- `self.total_edges` after `fit`. -/
def totalEdgesM (rels : List Rel) : Nat :=
  (mRels rels).length

/-- `self.node_out_degree[node]` after `fit`. -/
def outDegree (rels : List Rel) (node : String) : Nat :=
  (mRels rels).countP (fun r => r.source == node)

/-- `self.node_in_degree[node]` after `fit` (`if target:` guards the
increment). -/
def inDegree (rels : List Rel) (node : String) : Nat :=
  (mRels rels).countP (fun r => !r.target.isEmpty && r.target == node)

/-- `_compute_structural_weight`. -/
noncomputable def structuralWeight (rels : List Rel) (t : String) : ℝ :=
  if totalEdgesM rels = 0 then 1
  else if edgeCountM rels t = 0 then 1
  else if 0 < Real.log ((totalEdgesM rels : ℝ) + 1) then
    Real.log (((totalEdgesM rels : ℝ) + 1) / ((edgeCountM rels t : ℝ) + 1)) /
      Real.log ((totalEdgesM rels : ℝ) + 1)
  else 1

/-- `_compute_functional_weight`: the fixed criticality table. -/
noncomputable def functionalWeight (t : String) : ℝ :=
  if t = "CALLS" ∨ t = "ASYNC_AWAITS" ∨ t = "YIELDS" ∨ t = "RETURNS" then 1
  else if t = "RAISES" ∨ t = "CATCHES" then 0.95
  else if t = "DEFINES" ∨ t = "WRITES" ∨ t = "INSTANTIATES" then 0.8
  else if t = "USES" ∨ t = "READS" then 0.7
  else if t = "WITH_CONTEXT" then 0.65
  else if t = "OVERRIDES" ∨ t = "DECORATES" then 0.5
  else if t = "EXTENDS" ∨ t = "IMPLEMENTS" ∨ t = "IMPORTS" then 0.2
  else 0.5

/-- One node's degree-based centrality:
`math.log1p(out + in) / math.log1p(50)`. -/
noncomputable def nodeCentrality (rels : List Rel) (node : String) : ℝ :=
  Real.log (1 + ((outDegree rels node + inDegree rels node : ℕ) : ℝ)) /
    Real.log (1 + 50)

/-- `_compute_centrality_weight` (`if target:` guards the target part). -/
noncomputable def centralityWeight (rels : List Rel) (src tgt : String) : ℝ :=
  let sc := nodeCentrality rels src
  let tc := if tgt.isEmpty then 0 else nodeCentrality rels tgt
  min 1 ((sc + tc) / 2)

/-- Python `s.count("::")`: non-overlapping occurrences of the separator. -/
def sepCount (s : String) : Nat :=
  (s.splitOn "::").length - 1

/-- `_compute_depth_weight` (`source.count("::") if source else 0`). -/
noncomputable def depthWeight (src tgt : String) : ℝ :=
  let sd := if src.isEmpty then 0 else sepCount src
  let td := if tgt.isEmpty then 0 else sepCount tgt
  min 1 (((max sd td : ℕ) : ℝ) / 5)

/-- Whether `(src, t, tgt)` is a key of `self.metrics` after `fit rels`. -/
def fittedEdge (rels : List Rel) (src t tgt : String) : Bool :=
  rels.any (fun r => validRel r && r.source == src && r.type == t && r.target == tgt)

/-- The tuple stored in `self.metrics` for a fitted key. -/
noncomputable def metricsOf (rels : List Rel) (src t tgt : String) :
    Option (ℝ × ℝ × ℝ × ℝ) :=
  if fittedEdge rels src t tgt then
    some (structuralWeight rels t, functionalWeight t,
      centralityWeight rels src tgt, depthWeight src tgt)
  else none

/-- `metrics[dim]` for the four stored dimension names, `none` otherwise
(the `if dim in metrics` membership test). -/
def dimValue (m : ℝ × ℝ × ℝ × ℝ) (dim : String) : Option ℝ :=
  if dim = "structural" then some m.1
  else if dim = "functional" then some m.2.1
  else if dim = "centrality" then some m.2.2.1
  else if dim = "depth" then some m.2.2.2
  else none

/-- `get_combined_weight`: weighted sum over the supplied dimension-weight
entries, skipping unknown dimensions, clamped by `min(1.0, ...)`;
`0.5` for an unfitted edge key. -/
noncomputable def getCombinedWeight (rels : List Rel) (src t tgt : String)
    (ws : List (String × ℝ)) : ℝ :=
  match metricsOf rels src t tgt with
  | none => 0.5
  | some m =>
    min 1 (ws.foldl (fun acc p =>
      match dimValue m p.1 with
      | some v => acc + v * p.2
      | none => acc) 0)

/-- The default dimension weights of `get_combined_weight`. -/
noncomputable def defaultDimWeights : List (String × ℝ) :=
  [("structural", 0.2), ("functional", 0.5), ("centrality", 0.2), ("depth", 0.1)]

/-! ### Project traversal orchestrator (`tree_parser.py`)

`TreeParser.traverse_tree` pre-counts filesystem entries (`count_items`),
then walks the tree top-down (phase 1: folder/file nodes, `CONTAINS`
edges, symbol nodes with `HAS_SYMBOL` edges), then re-walks it
(phase 2: `USES_SYMBOL` edges by substring containment), and finally calls
`self.send_progress(100)` unconditionally.

The filesystem is modelled as a rose tree (`FSTree`); `os.walk` /
`os.scandir` enumerate it in declaration order.  Parsers are external to
this component, so `parser.parse(content, path).symbols` is an oracle
function of the configuration.  The `uuid4` node ids are modelled by a
fresh counter (their only relevant property being freshness), and the
progress socket by the list of `percent` payloads handed to it.
`_flush_batches` only moves prefixes of the node/edge lists to the
external store, so the model keeps the full accumulated lists instead.
Node/edge property bags not used by any control flow are omitted.

Because the state-dependent guards (`if path not in self.node_ids`, dict
lookups) live inside the per-step transition, phase 1 and phase 2 are
factored as the list of steps (`TPOp`) the walk performs, folded by
`applyOp`; the op list is a pure function of the filesystem and
configuration, exactly mirroring the loop structure of `traverse_tree`. -/

/-- A file: its basename and raw text content. -/
structure FileEnt where
  name : String
  content : String
  deriving Repr, DecidableEq

/-- A directory with its (named) subdirectories and files. -/
inductive FSTree where
  | dir (name : String) (subdirs : List FSTree) (files : List FileEnt)

def FSTree.dname : FSTree → String
  | .dir n _ _ => n

def FSTree.sub : FSTree → List FSTree
  | .dir _ s _ => s

def FSTree.fs : FSTree → List FileEnt
  | .dir _ _ f => f

/-- A symbol dict as consumed by the orchestrator:
`s.get("type", "Symbol")` and `s.get("name", "")`. -/
structure TSym where
  stype : String
  sname : String
  deriving Repr, DecidableEq

/-- Environment of a run: the configured excluded-directory set (always
containing `.git`), the languages with a registered parser, and the parser
oracle giving `parse(content, path).symbols` per file. -/
structure TPConfig where
  excl : String → Bool
  hasParser : String → Bool
  oracle : String → String → List TSym

/-- A node dict sent to the bulk endpoint (id, label, name, path). -/
structure GNode where
  id : Nat
  label : String
  name : String
  path : String
  deriving Repr, DecidableEq

/-- An edge dict sent to the bulk endpoint. -/
structure GEdge where
  source_id : Nat
  target_id : Nat
  type : String
  deriving Repr, DecidableEq

/-- The mutable attributes of a `TreeParser` instance, plus the sequence of
percent values handed to the progress socket. -/
structure TPState where
  nodes : List GNode
  edges : List GEdge
  nodeIds : List (String × Nat)
  symbols : List (String × Nat)
  nextId : Nat
  total : Nat
  processed : Nat
  lastPercent : Int
  sent : List Nat
  deriving Repr, DecidableEq

/-- Python dict lookup `m.get(k)`. -/
def lookupD (m : List (String × Nat)) (k : String) : Option Nat :=
  (m.find? (fun p => p.1 == k)).map (fun p => p.2)

/-- Python dict assignment `m[k] = v` (one binding per key, latest wins;
iteration order of the model is immaterial to the stated theorems). -/
def dictSet (m : List (String × Nat)) (k : String) (v : Nat) : List (String × Nat) :=
  (k, v) :: m.filter (fun p => p.1 != k)

/-- `send_progress`: the payload list grows (send failures are swallowed in
the code; the claims are about what is sent). -/
def sendProgress (st : TPState) (percent : Nat) : TPState :=
  { st with sent := st.sent ++ [percent] }

/-- `update_progress`: `int((processed / total) * 100)`, sent only when it
strictly exceeds `last_percent`.  The float product is modelled as the
exact truncated quotient. -/
def updateProgress (st : TPState) : TPState :=
  if st.total = 0 then st
  else
    let percent : Nat := st.processed * 100 / st.total
    if (percent : Int) > st.lastPercent then
      sendProgress { st with lastPercent := (percent : Int) } percent
    else st

/-- `_add_node`: allocate a fresh node id, record it under the path,
append the node, bump `processed_items` and update progress. -/
def addNode (st : TPState) (label nodeName path ntype : String) : TPState :=
  let nid := st.nextId
  updateProgress { st with
    nextId := nid + 1
    nodeIds := dictSet st.nodeIds path nid
    nodes := st.nodes ++ [⟨nid, label, nodeName, path⟩]
    processed := st.processed + 1 }

/-- `_add_edge`: look both endpoint paths up in `node_ids` and drop the
edge when either is missing.  (`ntype` is the property-bag `kind`.) -/
def addEdge (st : TPState) (sourcePath targetPath relType : String) : TPState :=
  match lookupD st.nodeIds sourcePath, lookupD st.nodeIds targetPath with
  | some sid, some tid => { st with edges := st.edges ++ [⟨sid, tid, relType⟩] }
  | _, _ => st

/-- Python `str.capitalize()`. -/
def pyCapitalize (s : String) : String :=
  match s.toList with
  | [] => ""
  | c :: cs => ⟨c.toUpper :: cs.map Char.toLower⟩

/-- Python `str.lower()` (character-wise, so that it evaluates in the
kernel). -/
def pyLower (s : String) : String :=
  ⟨s.toList.map Char.toLower⟩

/-- Whether `needle` is an initial segment of `haystack`. -/
def leadsWith : List Char → List Char → Bool
  | [], _ => true
  | _ :: _, [] => false
  | a :: as, b :: bs => a == b && leadsWith as bs

def hasSubstrAux (needle : List Char) : List Char → Bool
  | [] => needle.isEmpty
  | c :: rest => leadsWith needle (c :: rest) || hasSubstrAux needle rest

/-- Python `needle in haystack` (substring containment). -/
def containsSubstr (haystack needle : String) : Bool :=
  hasSubstrAux needle.toList haystack.toList

/-- `pathlib.Path(name).suffix`: last index of `'.'` strictly inside the
name. -/
def lastDotIdx : List Char → Option Nat
  | [] => none
  | c :: cs =>
    match lastDotIdx cs with
    | some i => some (i + 1)
    | none => if c = '.' then some 0 else none

def pySuffix (name : String) : String :=
  match lastDotIdx name.toList with
  | some i => if 0 < i ∧ i < name.length - 1 then ⟨name.toList.drop i⟩ else ""
  | none => ""

/-- `SUPPORTED_EXT.get(Path(filename).suffix.lower())`. -/
def detectLanguage (filename : String) : Option String :=
  let sfx := pyLower (pySuffix filename)
  if sfx = ".py" then some "python"
  else if sfx = ".js" ∨ sfx = ".ts" then some "javascript"
  else if sfx = ".vue" then some "vue"
  else if sfx = ".php" then some "php"
  else if sfx = ".sh" then some "bash"
  else if sfx = ".c" ∨ sfx = ".h" then some "c"
  else if sfx = ".rs" then some "rust"
  else none

/-- One step of the traversal; the state-dependent guards of the Python
loops live in `applyOp`. -/
inductive TPOp where
  | ensureNode (label nodeName path ntype : String)
  | containsEdge (sourcePath targetPath : String)
  | symNode (fpath stype sname : String)
  | scanFile (fpath content : String)
  deriving Repr, DecidableEq

/-- The body of the `for symbol_name, sid in self.symbols.items():` loop of
phase 2. -/
def scanStep (fid : Nat) (content : String) (acc : TPState) (p : String × Nat) :
    TPState :=
  if p.1 ≠ "" ∧ containsSubstr content p.1 then
    { acc with edges := acc.edges ++ [⟨fid, p.2, "USES_SYMBOL"⟩] }
  else acc

/-- The state transition of a single traversal step:
* `ensureNode` is the `if path not in self.node_ids: self._add_node(...)`
  pattern of phase 1;
* `containsEdge` is `self._add_edge(parent, child, "CONTAINS", ...)`;
* `symNode` materializes one parsed symbol: fresh id, node append,
  `HAS_SYMBOL` edge when the owning file is known, and the name-to-id
  `self.symbols` recording for truthy names;
* `scanFile` is the phase-2 body for one file: skip unknown paths, then
  emit a `USES_SYMBOL` edge for every recorded symbol name occurring in
  the file's text. -/
def applyOp (st : TPState) : TPOp → TPState
  | .ensureNode label nodeName path ntype =>
    if (lookupD st.nodeIds path).isNone then addNode st label nodeName path ntype
    else st
  | .containsEdge src tgt => addEdge st src tgt "CONTAINS"
  | .symNode fpath stype sname =>
    let sid := st.nextId
    let st1 := { st with
      nextId := sid + 1
      nodes := st.nodes ++ [⟨sid, pyCapitalize stype, sname, fpath⟩] }
    let st2 :=
      match lookupD st1.nodeIds fpath with
      | some fid => { st1 with edges := st1.edges ++ [⟨fid, sid, "HAS_SYMBOL"⟩] }
      | none => st1
    if sname ≠ "" then { st2 with symbols := dictSet st2.symbols sname sid } else st2
  | .scanFile fpath content =>
    match lookupD st.nodeIds fpath with
    | none => st
    | some fid => st.symbols.foldl (scanStep fid content) st

/-- The phase-1 steps for one supported file: file node, `CONTAINS` edge,
then (for a supported language with a registered parser) one `symNode`
step per symbol the parser returned. -/
def fileOps (cfg : TPConfig) (dpath : String) (f : FileEnt) : List TPOp :=
  let fpath := dpath ++ "/" ++ f.name
  [TPOp.ensureNode "File" f.name fpath "file", TPOp.containsEdge dpath fpath] ++
  match detectLanguage f.name with
  | some lang =>
    if cfg.hasParser lang then
      (cfg.oracle fpath f.content).map (fun s => TPOp.symNode fpath s.stype s.sname)
    else []
  | none => []

mutual
/-- `count_items`: every file plus every non-excluded directory below the
root; the root itself is not counted. -/
def countItems (cfg : TPConfig) : FSTree → Nat
  | .dir _ subs files => files.length + countItemsList cfg subs
def countItemsList (cfg : TPConfig) : List FSTree → Nat
  | [] => 0
  | t :: ts =>
    (if cfg.excl t.dname then 0 else 1 + countItems cfg t) + countItemsList cfg ts
end

/-- The `for sub in dirnames:` loop of phase 1: folder node and `CONTAINS`
edge per non-excluded subdirectory. -/
def subEntryOps (cfg : TPConfig) (dpath : String) : List FSTree → List TPOp
  | [] => []
  | t :: ts =>
    (if cfg.excl t.dname then [] else
      [TPOp.ensureNode "Folder" t.dname (dpath ++ "/" ++ t.dname) "folder",
       TPOp.containsEdge dpath (dpath ++ "/" ++ t.dname)]) ++
    subEntryOps cfg dpath ts

mutual
/-- Phase 1 of `traverse_tree` for the directory rooted at `dpath`:
folder node for the directory itself, folder nodes and `CONTAINS` edges
for its non-excluded subdirectories, file steps, then the recursive
descent (in `os.walk` top-down order, excluded names pruned). -/
def dirOps (cfg : TPConfig) (dpath : String) : FSTree → List TPOp
  | .dir nm subs files =>
    [TPOp.ensureNode "Folder" nm dpath "folder"] ++
    subEntryOps cfg dpath subs ++
    files.flatMap (fileOps cfg dpath) ++
    subWalkOps cfg dpath subs
def subWalkOps (cfg : TPConfig) (dpath : String) : List FSTree → List TPOp
  | [] => []
  | t :: ts =>
    (if cfg.excl t.dname then [] else dirOps cfg (dpath ++ "/" ++ t.dname) t) ++
    subWalkOps cfg dpath ts
end

mutual
/-- Phase 2 of `traverse_tree`: one `scanFile` step per file, walking the
whole tree again (this second `os.walk` does not prune excluded names;
unknown paths are skipped inside `applyOp`). -/
def phase2Ops (dpath : String) : FSTree → List TPOp
  | .dir _ subs files =>
    files.map (fun f => TPOp.scanFile (dpath ++ "/" ++ f.name) f.content) ++
    phase2OpsList dpath subs
def phase2OpsList (dpath : String) : List FSTree → List TPOp
  | [] => []
  | t :: ts =>
    phase2Ops (dpath ++ "/" ++ t.dname) t ++ phase2OpsList dpath ts
end

/-- A fresh `TreeParser` after the pre-count. -/
def initState (total : Nat) : TPState :=
  ⟨[], [], [], [], 0, total, 0, -1, []⟩

def runOps (st : TPState) (ops : List TPOp) : TPState :=
  ops.foldl applyOp st

/-- `TreeParser.traverse_tree` on the filesystem `t` mounted at
`rootPath`: pre-count, phase 1, phase 2, then the unconditional final
`self.send_progress(100)`. -/
def traverseTree (cfg : TPConfig) (rootPath : String) (t : FSTree) : TPState :=
  let st0 := initState (countItems cfg t)
  let st1 := runOps st0 (dirOps cfg rootPath t)
  let st2 := runOps st1 (phase2Ops rootPath t)
  sendProgress st2 100

/-! #### Orchestrator invariants -/

/-- The ids of all nodes created so far in the run. -/
def nodeIdsOf (st : TPState) : List Nat :=
  st.nodes.map (fun n => n.id)

/-- Every recorded path id, symbol id, and edge endpoint refers to a node
created during the run. -/
def EdgeInv (st : TPState) : Prop :=
  (∀ p ∈ st.nodeIds, p.2 ∈ nodeIdsOf st) ∧
  (∀ p ∈ st.symbols, p.2 ∈ nodeIdsOf st) ∧
  (∀ e ∈ st.edges, e.source_id ∈ nodeIdsOf st ∧ e.target_id ∈ nodeIdsOf st)

/-! #### Orchestrator progress -/

/-- The filesystem of the progress counterexample: a root directory with a
single (unparsed) file. -/
def progressDemoTree : FSTree :=
  .dir "project" [] [⟨"a.txt", ""⟩]

def progressDemoCfg : TPConfig :=
  ⟨fun s => s == ".git", fun _ => true, fun _ _ => []⟩

/-- The percent values pushed by `update_progress` so far strictly
increase, and none exceeds `last_percent`. -/
def SentInv (st : TPState) : Prop :=
  List.Chain' (· < ·) st.sent ∧ ∀ x ∈ st.sent, (x : Int) ≤ st.lastPercent

/-! ### Dynamic-scripting (Python) extractor (`python_parser.py`)

The tree-sitter engine is external, so the grammar path consumes a concrete
syntax tree: a `TSNode` carries the node type, the source text covered by
the node (`text_of`), and the children.  `prev_sibling` and `parent` are
recovered from the walk context (`PCtx`: the parent node and the child's
index in it), which is exactly how the Python closure reaches them.

The walk state mirrors the closure variables of `PythonParser.parse`:
`scope_stack` (top of stack is the head here), `class_methods`,
`current_class`, plus the accumulated `symbols` and `relations`.  Each
`elif` branch of the walk is a named handler; `walkNode` dispatches on the
node type and recurses over the children exactly as the Python `walk`
does (the `function_definition` / `class_definition` branches with a
truthy name walk their children themselves and return early; every other
branch falls through to the generic child walk with an unchanged
`parent_type`). -/

/-- A tree-sitter CST node: type, covered text, children. -/
inductive TSNode where
  | mk (ntype : String) (text : String) (children : List TSNode)

def TSNode.ntype : TSNode → String
  | .mk t _ _ => t

def TSNode.text : TSNode → String
  | .mk _ x _ => x

def TSNode.children : TSNode → List TSNode
  | .mk _ _ c => c

/-- The walk context of a non-root node: its parent and its index among
the parent's children (`n.parent`, and the source of `n.prev_sibling`). -/
structure PCtx where
  parent : TSNode
  idx : Nat

/-- A symbol dict built by `BaseParser.sym` in this parser:
`{"type", "name", "language": "python", "id"?, "file"?, "is_async"?}`. -/
structure PySym where
  stype : String
  name : String
  id : Option String
  file : Option String
  isAsync : Option Bool
  deriving Repr, DecidableEq

/-- A relation dict `{"type", "source", "target"}`. -/
structure PRel where
  rtype : String
  source : String
  target : String
  deriving Repr, DecidableEq

/-- A diagnostic dict `{"level", "message"}`. -/
structure Diag where
  level : String
  message : String
  deriving Repr, DecidableEq

/-- The closure state of `PythonParser.parse`'s walk. -/
structure PyState where
  scopeStack : List String
  classMethods : List (String × List String)
  currentClass : Option String
  symbols : List PySym
  relations : List PRel
  deriving Repr, DecidableEq

/-- `path or "<memory>"` (Python `or`: `None` and `""` both fall back). -/
def pathOr (path : Option String) : String :=
  match path with
  | some p => if p.isEmpty then "<memory>" else p
  | none => "<memory>"

/-- `f"{path}"` on an `Optional[str]`. -/
def pathRepr (path : Option String) : String :=
  match path with
  | some p => p
  | none => "None"

/-- Python `str.strip()`. -/
def pyStrip (s : String) : String :=
  ⟨(((s.toList.dropWhile Char.isWhitespace).reverse.dropWhile
      Char.isWhitespace).reverse)⟩

/-- `text_of(prev).strip().lstrip('@')` for a decorator node. -/
def stripDecorator (s : String) : String :=
  ⟨(pyStrip s).toList.dropWhile (fun c => c == '@')⟩

/-- `func_name[0].isupper()` for a nonempty name (`false` on empty). -/
def startsUpper (s : String) : Bool :=
  match s.toList with
  | [] => false
  | c :: _ => c.isUpper

/-- `get_scope_id()`: `scope_stack[-1]`. -/
def PyState.scopeTop (st : PyState) : String :=
  st.scopeStack.headD ""

/-- The first child matching one of the given node types (the
`for ch in n.children: if ch.type in (...): ...; break` pattern). -/
def firstChildTyped (n : TSNode) (tys : List String) : Option String :=
  (n.children.find? (fun ch => tys.contains ch.ntype)).map TSNode.text

/-- The preceding siblings, nearest first (the `prev = n.prev_sibling;
while prev: ...` chain). -/
def prevSiblings : Option PCtx → List TSNode
  | some c => (c.parent.children.take c.idx).reverse
  | none => []

/-- The decorator names collected from the preceding-sibling chain. -/
def decoratorsOf (pctx : Option PCtx) : List String :=
  ((prevSiblings pctx).filter (fun s => s.ntype == "decorator")).map
    (fun d => stripDecorator d.text)

/-- `n.prev_sibling and n.prev_sibling.type == "async"`. -/
def asyncOf (pctx : Option PCtx) : Bool :=
  match (prevSiblings pctx).head? with
  | some s => s.ntype == "async"
  | none => false

/-- Association-list lookup for `class_methods`. -/
def lookupCM (m : List (String × List String)) (k : String) :
    Option (List String) :=
  (m.find? (fun p => p.1 == k)).map (fun p => p.2)

/-- `extract_class_bases`: base names from `argument_list` children, and
those recognized as Protocol/ABC (substring test). -/
def classBases (n : TSNode) : List String × List String :=
  n.children.foldl
    (fun acc ch =>
      if ch.ntype == "argument_list" then
        ch.children.foldl
          (fun acc2 bc =>
            if bc.ntype == "identifier" || bc.ntype == "attribute" then
              let bn := bc.text
              if bn.isEmpty then acc2
              else
                (acc2.1 ++ [bn],
                 if containsSubstr bn "Protocol" || containsSubstr bn "ABC" ||
                     bn == "Protocol" || bn == "ABC" then
                   acc2.2 ++ [bn]
                 else acc2.2)
            else acc2)
          acc
      else acc)
    ([], [])

/-- The `is_write` scan of the `attribute` branch: walk the assignment's
children; seeing the attribute itself first means a write, seeing `"="`
first means a read. -/
def scanWrite : List TSNode → Nat → Nat → Bool
  | [], _, _ => false
  | ch :: rest, myIdx, j =>
    if j == myIdx then true
    else if ch.ntype == "=" then false
    else scanWrite rest myIdx (j + 1)

/-- The `with_statement` context-expression search (emission requires a
truthy text, so items whose first matching expression has empty text are
passed over, exactly as the loop's `if context_expr: break` does). -/
def withContextExpr (n : TSNode) : Option String :=
  n.children.findSome? (fun ch =>
    if ch.ntype == "with_clause" then
      ch.children.findSome? (fun item =>
        if item.ntype == "with_item" then
          match item.children.find? (fun e =>
              ["identifier", "attribute", "call"].contains e.ntype) with
          | some e => if e.text.isEmpty then none else some e.text
          | none => none
        else none)
    else none)

/-- The `import_statement` / `import_from_statement` branch. -/
def handleImport (path : Option String) (n : TSNode) (st : PyState) : PyState :=
  { st with relations := st.relations ++
      [⟨"IMPORTS", pathOr path, pyStrip n.text⟩] }

/-- The callee extracted by the `call` branch: the first `identifier` or
`attribute` child's text. -/
def calleeOf (n : TSNode) : Option String :=
  firstChildTyped n ["identifier", "attribute"]

/-- The `call` branch: inside a non-module scope, an uppercase-initial
callee becomes `INSTANTIATES`, anything else `CALLS`; at module level
(scope stack of length 1) nothing is emitted. -/
def handleCall (n : TSNode) (st : PyState) : PyState :=
  match calleeOf n with
  | some fn =>
    if !fn.isEmpty && st.scopeStack.length > 1 then
      if startsUpper fn then
        { st with relations := st.relations ++ [⟨"INSTANTIATES", st.scopeTop, fn⟩] }
      else
        { st with relations := st.relations ++ [⟨"CALLS", st.scopeTop, fn⟩] }
    else st
  | none => st

/-- The `raise_statement` branch. -/
def handleRaise (n : TSNode) (st : PyState) : PyState :=
  match firstChildTyped n ["identifier", "attribute", "call"] with
  | some ex =>
    if !ex.isEmpty && st.scopeStack.length > 1 then
      { st with relations := st.relations ++ [⟨"RAISES", st.scopeTop, ex⟩] }
    else st
  | none => st

/-- The `except_clause` branch. -/
def handleExcept (n : TSNode) (st : PyState) : PyState :=
  match firstChildTyped n ["identifier", "attribute"] with
  | some ex =>
    if !ex.isEmpty && st.scopeStack.length > 1 then
      { st with relations := st.relations ++ [⟨"CATCHES", st.scopeTop, ex⟩] }
    else st
  | none => st

/-- The `yield` branch (`yielded_value or "value"`). -/
def handleYield (n : TSNode) (st : PyState) : PyState :=
  if st.scopeStack.length > 1 then
    let target :=
      match firstChildTyped n ["identifier", "attribute", "call", "string"] with
      | some v => if v.isEmpty then "value" else v
      | none => "value"
    { st with relations := st.relations ++ [⟨"YIELDS", st.scopeTop, target⟩] }
  else st

/-- The `return_statement` branch (emits only for a truthy value). -/
def handleReturn (n : TSNode) (st : PyState) : PyState :=
  if st.scopeStack.length > 1 then
    match firstChildTyped n
        ["identifier", "attribute", "call", "string", "integer", "boolean"] with
    | some v =>
      if !v.isEmpty then
        { st with relations := st.relations ++ [⟨"RETURNS", st.scopeTop, v⟩] }
      else st
    | none => st
  else st

/-- The `await` branch. -/
def handleAwait (n : TSNode) (st : PyState) : PyState :=
  match firstChildTyped n ["identifier", "attribute", "call"] with
  | some v =>
    if !v.isEmpty && st.scopeStack.length > 1 then
      { st with relations := st.relations ++ [⟨"ASYNC_AWAITS", st.scopeTop, v⟩] }
    else st
  | none => st

/-- The `with_statement` branch. -/
def handleWith (n : TSNode) (st : PyState) : PyState :=
  match withContextExpr n with
  | some ce =>
    if st.scopeStack.length > 1 then
      { st with relations := st.relations ++ [⟨"WITH_CONTEXT", st.scopeTop, ce⟩] }
    else st
  | none => st

/-- The `assignment` branch: `var_name` ends as the text of the *last*
`identifier` / `pattern_list` child (each match overwrites it). -/
def handleAssignment (n : TSNode) (st : PyState) : PyState :=
  match ((n.children.filter (fun ch =>
      ch.ntype == "identifier" || ch.ntype == "pattern_list")).getLast?).map
      TSNode.text with
  | some vn =>
    if !vn.isEmpty && st.scopeStack.length > 1 then
      { st with relations := st.relations ++ [⟨"DEFINES", st.scopeTop, vn⟩] }
    else st
  | none => st

/-- The `attribute` branch: `WRITES` when the attribute sits left of the
`=` of an enclosing `assignment`, else `READS`. -/
def handleAttribute (pctx : Option PCtx) (n : TSNode) (st : PyState) : PyState :=
  if st.scopeStack.length > 1 then
    if (match pctx with
        | some c =>
          if c.parent.ntype == "assignment" then
            scanWrite c.parent.children c.idx 0
          else false
        | none => false) then
      { st with relations := st.relations ++ [⟨"WRITES", st.scopeTop, n.text⟩] }
    else
      { st with relations := st.relations ++ [⟨"READS", st.scopeTop, n.text⟩] }
  else st

/-- The `identifier` branch (active only under `parent_type` `function` or
`class`, skipping the keyword-ish exclusion list). -/
def handleIdentifier (pt : Option String) (n : TSNode) (st : PyState) : PyState :=
  if pt == some "function" || pt == some "class" then
    if st.scopeStack.length > 1 &&
        !(["self", "cls", "def", "class", "return", "if", "else", "for",
          "while"].contains n.text) then
      { st with relations := st.relations ++ [⟨"USES", st.scopeTop, n.text⟩] }
    else st
  else st

/-- The leading part of the `function_definition` branch for a truthy
name: function symbol, `DECORATES` edges, the `OVERRIDES` check against
the current class's recorded method-name set, and the scope push. -/
def funcEnter (path : Option String) (nm : String) (decorators : List String)
    (isAsync : Bool) (st : PyState) : PyState :=
  let funcId := st.scopeTop ++ "::" ++ nm
  let st1 := { st with symbols := st.symbols ++
    ([⟨"function", nm, some funcId, path, some isAsync⟩] : List PySym) }
  let decoRels : List PRel := decorators.map (fun d => ⟨"DECORATES", d, funcId⟩)
  let st2 := { st1 with relations := st1.relations ++ decoRels }
  let st3 :=
    match st2.currentClass with
    | some cc =>
      match lookupCM st2.classMethods cc with
      | some ms =>
        if ms.contains nm then
          { st2 with relations := st2.relations ++
            ([⟨"OVERRIDES", funcId, cc ++ "::" ++ nm⟩] : List PRel) }
        else st2
      | none => st2
    | none => st2
  { st3 with scopeStack := funcId :: st3.scopeStack }

/-- `scope_stack.pop()`. -/
def scopePop (st : PyState) : PyState :=
  { st with scopeStack := st.scopeStack.tail }

/-- The leading part of the `class_definition` branch for a truthy name:
class symbol (id `f"{path}::{name}"`), `DECORATES` edges,
`EXTENDS` / `IMPLEMENTS` per base, the (empty) `class_methods` entry, the
`current_class` switch and the scope push. -/
def classEnter (path : Option String) (nm : String) (decorators : List String)
    (n : TSNode) (st : PyState) : PyState :=
  let classId := pathRepr path ++ "::" ++ nm
  let st1 := { st with symbols := st.symbols ++
    ([⟨"class", nm, some classId, path, none⟩] : List PySym) }
  let decoRels : List PRel := decorators.map (fun d => ⟨"DECORATES", d, classId⟩)
  let st2 := { st1 with relations := st1.relations ++ decoRels }
  let bp := classBases n
  let baseRels : List PRel := bp.1.map (fun base =>
    if bp.2.contains base then (⟨"IMPLEMENTS", classId, base⟩ : PRel)
    else ⟨"EXTENDS", classId, base⟩)
  let st3 := { st2 with relations := st2.relations ++ baseRels }
  let st4 := { st3 with
    classMethods :=
      if (lookupCM st3.classMethods classId).isNone then
        st3.classMethods ++ [(classId, [])]
      else st3.classMethods
    currentClass := some classId }
  { st4 with scopeStack := classId :: st4.scopeStack }

/-- The `elif` chain for all node types that fall through to the generic
child walk. -/
def dispatchLeaf (path : Option String) (pctx : Option PCtx)
    (pt : Option String) (n : TSNode) (st : PyState) : PyState :=
  if n.ntype == "import_statement" || n.ntype == "import_from_statement" then
    handleImport path n st
  else if n.ntype == "call" then handleCall n st
  else if n.ntype == "raise_statement" then handleRaise n st
  else if n.ntype == "except_clause" then handleExcept n st
  else if n.ntype == "yield" then handleYield n st
  else if n.ntype == "return_statement" then handleReturn n st
  else if n.ntype == "await" then handleAwait n st
  else if n.ntype == "with_statement" then handleWith n st
  else if n.ntype == "assignment" then handleAssignment n st
  else if n.ntype == "attribute" then handleAttribute pctx n st
  else if n.ntype == "identifier" then handleIdentifier pt n st
  else st

mutual
/-- `walk(n, parent_type)` of `PythonParser.parse`. -/
def walkNode (path : Option String) (pctx : Option PCtx) (pt : Option String)
    (st : PyState) : TSNode → PyState
  | n@(.mk nt _ cs) =>
    if nt == "function_definition" then
      match firstChildTyped n ["identifier"] with
      | some nm =>
        if !nm.isEmpty then
          scopePop (walkChildren path n (some "function")
            (funcEnter path nm (decoratorsOf pctx) (asyncOf pctx) st) cs 0)
        else walkChildren path n pt (dispatchLeaf path pctx pt n st) cs 0
      | none => walkChildren path n pt (dispatchLeaf path pctx pt n st) cs 0
    else if nt == "class_definition" then
      match firstChildTyped n ["identifier"] with
      | some nm =>
        if !nm.isEmpty then
          let prev := st.currentClass
          let st2 := walkChildren path n (some "class")
            (classEnter path nm (decoratorsOf pctx) n st) cs 0
          { scopePop st2 with currentClass := prev }
        else walkChildren path n pt (dispatchLeaf path pctx pt n st) cs 0
      | none => walkChildren path n pt (dispatchLeaf path pctx pt n st) cs 0
    else
      walkChildren path n pt (dispatchLeaf path pctx pt n st) cs 0
/-- `for c in n.children: walk(c, parent_type)`. -/
def walkChildren (path : Option String) (parent : TSNode) (pt : Option String)
    (st : PyState) : List TSNode → Nat → PyState
  | [], _ => st
  | c :: rest, idx =>
    walkChildren path parent pt (walkNode path (some ⟨parent, idx⟩) pt st c)
      rest (idx + 1)
end

/-- The grammar path of `PythonParser.parse`: seed the scope stack with
`path or "<memory>"` and walk the root. -/
def pythonGrammarParse (path : Option String) (root : TSNode) : PyState :=
  walkNode path none none ⟨[pathOr path], [], none, [], []⟩ root

/-- The regex-fallback path of `PythonParser.parse`; the `re.finditer`
captures for the three patterns are inputs (the regex engine is external),
and the code maps them to symbols, `IMPORTS` relations and the warning
diagnostic. -/
def pythonFallbackSymbols (funcMatches classMatches : List String) : List PySym :=
  funcMatches.map (fun m => ⟨"function", m, none, none, none⟩) ++
  classMatches.map (fun m => ⟨"class", m, none, none, none⟩)

def pythonFallbackRelations (path : Option String) (importMatches : List String) :
    List PRel :=
  importMatches.map (fun m => ⟨"IMPORTS", pathOr path, pyStrip m⟩)

def pythonFallbackDiagnostics : List Diag :=
  [⟨"warning", "tree-sitter not available; using regex fallback"⟩]

/-! #### Python walk invariants -/

/-- The walk invariant: every `class_methods` entry is the empty set it was
created as (nothing is ever added to one), hence no `OVERRIDES` relation is
ever emitted; and every emitted symbol is a `function` or `class`. -/
def PyInv (st : PyState) : Prop :=
  (∀ p ∈ st.classMethods, p.2 = ([] : List String)) ∧
  (∀ r ∈ st.relations, r.rtype ≠ "OVERRIDES") ∧
  (∀ s ∈ st.symbols, s.stype = "function" ∨ s.stype = "class")

/-- CST of `class A:\n    def f(self): pass\nclass B(A):\n    def f(self): pass`
(shape as produced by the tree-sitter python grammar, reduced to the node
types the walk inspects). -/
def pyMethodDef : TSNode :=
  .mk "function_definition" "def f(self):\n        pass"
    [.mk "def" "def" [], .mk "identifier" "f" [], .mk "parameters" "(self)" [],
     .mk ":" ":" [], .mk "block" "pass" []]

def pyOverrideInput : TSNode :=
  .mk "module" "class A: ...\nclass B(A): ..."
    [.mk "class_definition" "class A: ..."
      [.mk "class" "class" [], .mk "identifier" "A" [], .mk ":" ":" [],
       .mk "block" "..." [pyMethodDef]],
     .mk "class_definition" "class B(A): ..."
      [.mk "class" "class" [], .mk "identifier" "B" [],
       .mk "argument_list" "(A)"
         [.mk "(" "(" [], .mk "identifier" "A" [], .mk ")" ")" []],
       .mk ":" ":" [], .mk "block" "..." [pyMethodDef]]]

/-- CST of a module-level call `foo()`: the callee is extractable, yet the
walk emits nothing because the scope stack has depth 1. -/
def pyTopLevelCallInput : TSNode :=
  .mk "module" "foo()"
    [.mk "call" "foo()"
      [.mk "identifier" "foo" [], .mk "argument_list" "()" []]]

/-- The `{symbols, relations, diagnostics}` result of `PythonParser.parse`. -/
structure PyResult where
  symbols : List PySym
  relations : List PRel
  diagnostics : List Diag
  deriving Repr, DecidableEq

/-- `PythonParser.parse`: grammar path when the tree-sitter engine is
available and bound (`self.ts_lang and Parser`, modelled by the presence
of the CST), regex fallback with the warning diagnostic otherwise. -/
def pythonParse (tsTree : Option TSNode) (path : Option String)
    (fm cm im : List String) : PyResult :=
  match tsTree with
  | some root =>
    let st := pythonGrammarParse path root
    ⟨st.symbols, st.relations, []⟩
  | none =>
    ⟨pythonFallbackSymbols fm cm, pythonFallbackRelations path im,
     pythonFallbackDiagnostics⟩

/-! ### JS-like, web-scripting, shell, C-like, memory-safe and component
extractors (`javascript_parser.py`, `php_parser.py`, `bash_parser.py`,
`c_parser.py`, `rust_parser.py`, `vue_parser.py`)

As for the Python extractor, tree-sitter CSTs and `re` match captures are
the external inputs; the mapping from them to symbols, relations and
diagnostics is embedded.  `GSym` is the symbol dict built by
`BaseParser.sym` for these parsers. -/

structure GSym where
  stype : String
  name : String
  language : String
  visibility : Option String
  deriving Repr, DecidableEq

/-- A parse result `{symbols, relations, diagnostics}`. -/
structure PResult where
  symbols : List GSym
  relations : List PRel
  diagnostics : List Diag
  deriving Repr, DecidableEq

/-- The walk accumulator of the JS and PHP grammar walks. -/
structure WalkAcc where
  symbols : List GSym
  relations : List PRel
  deriving Repr, DecidableEq

/-- The branch bodies of the JS `walk` (grammar path).  `requireArg` is
the external `re.search(r"require\((['\"])(.+?)\1\)", call_txt)` capture. -/
def jsLeaf (path : Option String) (requireArg : String → Option String)
    (n : TSNode) (st : WalkAcc) : WalkAcc :=
  if n.ntype == "function_declaration" then
    match firstChildTyped n ["identifier"] with
    | some nm =>
      if !nm.isEmpty then
        { st with symbols := st.symbols ++
          ([⟨"function", nm, "javascript", none⟩] : List GSym) }
      else st
    | none => st
  else if n.ntype == "class_declaration" then
    match firstChildTyped n ["identifier"] with
    | some nm =>
      if !nm.isEmpty then
        { st with symbols := st.symbols ++
          ([⟨"class", nm, "javascript", none⟩] : List GSym) }
      else st
    | none => st
  else if n.ntype == "import_declaration" then
    { st with relations := st.relations ++
      ([⟨"IMPORTS", pathOr path, pyStrip n.text⟩] : List PRel) }
  else if n.ntype == "call_expression" then
    match requireArg n.text with
    | some m =>
      { st with relations := st.relations ++
        ([⟨"REQUIRES", pathOr path, m⟩] : List PRel) }
    | none => st
  else st

mutual
/-- The `walk` of `JavaScriptParser.parse` (grammar path). -/
def jsWalkNode (path : Option String) (requireArg : String → Option String)
    (st : WalkAcc) : TSNode → WalkAcc
  | n@(.mk _ _ cs) =>
    jsWalkChildren path requireArg (jsLeaf path requireArg n st) cs
def jsWalkChildren (path : Option String) (requireArg : String → Option String)
    (st : WalkAcc) : List TSNode → WalkAcc
  | [] => st
  | c :: rest =>
    jsWalkChildren path requireArg (jsWalkNode path requireArg st c) rest
end

/-- The `re.finditer` captures of the JS regex fallback. -/
structure JSFallback where
  functions : List String
  classes : List String
  imports : List String
  requires : List String
  deriving Repr, DecidableEq

/-- `JavaScriptParser.parse`. -/
def jsParse (tsTree : Option TSNode) (requireArg : String → Option String)
    (path : Option String) (fb : JSFallback) : PResult :=
  match tsTree with
  | some root =>
    let acc := jsWalkNode path requireArg ⟨[], []⟩ root
    ⟨acc.symbols, acc.relations, []⟩
  | none =>
    ⟨fb.functions.map (fun m => ⟨"function", m, "javascript", none⟩) ++
     fb.classes.map (fun m => ⟨"class", m, "javascript", none⟩),
     fb.imports.map (fun m => ⟨"IMPORTS", pathOr path, m⟩) ++
     fb.requires.map (fun m => ⟨"REQUIRES", pathOr path, m⟩),
     [⟨"warning", "tree-sitter not available; using regex fallback"⟩]⟩

/-- The branch bodies of the PHP `walk` (grammar path). -/
def phpLeaf (path : Option String) (n : TSNode) (st : WalkAcc) : WalkAcc :=
  if n.ntype == "function_definition" then
    match firstChildTyped n ["name", "identifier"] with
    | some nm =>
      if !nm.isEmpty then
        { st with symbols := st.symbols ++
          ([⟨"function", nm, "php", none⟩] : List GSym) }
      else st
    | none => st
  else if n.ntype == "class_declaration" ||
      n.ntype == "class_declaration_statement" then
    match firstChildTyped n ["name", "identifier"] with
    | some nm =>
      if !nm.isEmpty then
        { st with symbols := st.symbols ++
          ([⟨"class", nm, "php", none⟩] : List GSym) }
      else st
    | none => st
  else if n.ntype == "include_expression" || n.ntype == "require_expression" ||
      n.ntype == "include_once_expression" ||
      n.ntype == "require_once_expression" then
    { st with relations := st.relations ++
      ([⟨"INCLUDES", pathOr path, pyStrip n.text⟩] : List PRel) }
  else st

mutual
/-- The `walk` of `PHPParser.parse` (grammar path). -/
def phpWalkNode (path : Option String) (st : WalkAcc) : TSNode → WalkAcc
  | n@(.mk _ _ cs) => phpWalkChildren path (phpLeaf path n st) cs
def phpWalkChildren (path : Option String) (st : WalkAcc) :
    List TSNode → WalkAcc
  | [] => st
  | c :: rest => phpWalkChildren path (phpWalkNode path st c) rest
end

/-- The `re.finditer` captures of the PHP regex fallback (`includes` holds
the second capture group of the include/require pattern). -/
structure PHPFallback where
  functions : List String
  classes : List String
  includes : List String
  deriving Repr, DecidableEq

/-- `PHPParser.parse`. -/
def phpParse (tsTree : Option TSNode) (path : Option String)
    (fb : PHPFallback) : PResult :=
  match tsTree with
  | some root =>
    let acc := phpWalkNode path ⟨[], []⟩ root
    ⟨acc.symbols, acc.relations, []⟩
  | none =>
    ⟨fb.functions.map (fun m => ⟨"function", m, "php", none⟩) ++
     fb.classes.map (fun m => ⟨"class", m, "php", none⟩),
     fb.includes.map (fun m => ⟨"INCLUDES", pathOr path, m⟩),
     [⟨"warning", "tree-sitter not available; using regex fallback"⟩]⟩

/-- The `re.finditer` captures of `BashParser.parse` (which is always
regex-based: `REQUIRES_TS = False`, no grammar branch and no diagnostic
is ever attached). -/
structure BashMatches where
  functions1 : List String
  functions2 : List String
  sources : List String
  vars : List String
  deriving Repr, DecidableEq

/-- `BashParser.parse`. -/
def bashParse (path : Option String) (m : BashMatches) : PResult :=
  ⟨m.functions1.map (fun f => ⟨"function", f, "bash", none⟩) ++
   m.functions2.map (fun f => ⟨"function", f, "bash", none⟩) ++
   m.vars.map (fun v => ⟨"variable", v, "bash", none⟩),
   m.sources.map (fun s => ⟨"SOURCES", pathOr path, s⟩),
   []⟩

/-- The `re.finditer` captures of `CParser.parse` (always regex-based:
its body never consults tree-sitter and attaches no diagnostic). -/
structure CMatches where
  includes : List String
  functions : List String
  structs : List String
  deriving Repr, DecidableEq

/-- `CParser.parse`. -/
def cParse (path : Option String) (m : CMatches) : PResult :=
  ⟨m.functions.map (fun f => ⟨"function", f, "c", none⟩) ++
   m.structs.map (fun s => ⟨"struct", s, "c", none⟩),
   m.includes.map (fun i => ⟨"INCLUDES", pathOr path, i⟩),
   []⟩

/-- The `re.finditer` captures of `RustParser.parse` (always regex-based);
each declaration capture carries whether the `pub` group matched. -/
structure RustMatches where
  imports : List String
  functions : List (Bool × String)
  structs : List (Bool × String)
  enums : List (Bool × String)
  traits : List (Bool × String)
  deriving Repr, DecidableEq

def rustVis (isPub : Bool) : String :=
  if isPub then "public" else "private"

/-- `RustParser.parse`. -/
def rustParse (path : Option String) (m : RustMatches) : PResult :=
  ⟨m.functions.map (fun p => ⟨"function", p.2, "rust", some (rustVis p.1)⟩) ++
   m.structs.map (fun p => ⟨"struct", p.2, "rust", some (rustVis p.1)⟩) ++
   m.enums.map (fun p => ⟨"enum", p.2, "rust", some (rustVis p.1)⟩) ++
   m.traits.map (fun p => ⟨"trait", p.2, "rust", some (rustVis p.1)⟩),
   m.imports.map (fun i => ⟨"IMPORTS", pathOr path, pyStrip i⟩),
   []⟩

/-- The standard-HTML tag list of `VueParser.parse`. -/
def htmlStdTags : List String :=
  ["div", "span", "a", "p", "img", "ul", "li", "ol", "section", "header",
   "footer", "main", "nav", "button", "input", "textarea", "select",
   "option", "table", "thead", "tbody", "tr", "td", "th", "form", "label",
   "small", "strong", "em"]

/-- `re.match(r"^(router|keep-alive|transition)", tag)`. -/
def vueBuiltinTag (tag : String) : Bool :=
  leadsWith "router".toList tag.toList ||
  leadsWith "keep-alive".toList tag.toList ||
  leadsWith "transition".toList tag.toList

/-- Python `s.endswith(suffix)`. -/
def endsWithStr (s suffix : String) : Bool :=
  leadsWith suffix.toList.reverse s.toList.reverse

/-- Python `s.replace(sub, "")` (left-to-right, non-overlapping), with the
haystack's length as structural fuel. -/
def removeSubstrAux (needle : List Char) : Nat → List Char → List Char
  | _, [] => []
  | 0, hay => hay
  | fuel + 1, c :: rest =>
    if !needle.isEmpty && leadsWith needle (c :: rest) then
      removeSubstrAux needle fuel ((c :: rest).drop needle.length)
    else c :: removeSubstrAux needle fuel rest

def pyReplaceRemove (s sub : String) : String :=
  ⟨removeSubstrAux sub.toList s.toList.length s.toList⟩

/-- `path.split("/")[-1]`. -/
def lastPathComponent (p : String) : String :=
  ⟨(p.toList.reverse.takeWhile (fun c => c != '/')).reverse⟩

/-- The `re` captures of `VueParser.parse`: the `<script>` block text, the
template tag names, the `components: {...}` entry names (quote-stripped),
and the `name: '...'` field searched in the script text. -/
structure VueMatches where
  scriptCode : String
  usedTags : List String
  componentEntries : List String
  nameField : Option String

/-- The script-block part of `VueParser.parse`: a truthy script block is
delegated to the JS parser (symbols, relations and diagnostics are all
extended) and contributes the `components: {...}` registrations. -/
def vueScriptPart (path : Option String) (vm : VueMatches)
    (jsTs : Option TSNode) (requireArg : String → Option String)
    (jsFb : JSFallback) : PResult :=
  if !vm.scriptCode.isEmpty then
    let js := jsParse jsTs requireArg path jsFb
    let withJs : PResult :=
      ⟨[] ++ js.symbols, [] ++ js.relations, [] ++ js.diagnostics⟩
    let compRels : List PRel := vm.componentEntries.map
      (fun c => ⟨"CHILD_COMPONENT", pathOr path, c⟩)
    { withJs with relations := withJs.relations ++ compRels }
  else ⟨[], [], []⟩

/-- The component name of `VueParser.parse`: the `name:` field, else (for
a truthy path ending in `.vue`) the filename with `.vue` removed. -/
def vueCompName (path : Option String) (vm : VueMatches) : Option String :=
  match vm.nameField with
  | some nm => some nm
  | none =>
    match path with
    | some p =>
      if !p.isEmpty && endsWithStr p ".vue" then
        some (pyReplaceRemove (lastPathComponent p) ".vue")
      else none
    | none => none

/-- `VueParser.parse`: the script-block part, `CHILD_COMPONENT` relations
for template-discovered custom tags, then the file itself as a
`component` symbol when a truthy component name is found. -/
def vueParse (path : Option String) (vm : VueMatches) (jsTs : Option TSNode)
    (requireArg : String → Option String) (jsFb : JSFallback) : PResult :=
  let st1 := vueScriptPart path vm jsTs requireArg jsFb
  let tagRels : List PRel :=
    (vm.usedTags.filter
      (fun tag => !htmlStdTags.contains tag && !vueBuiltinTag tag)).map
      (fun tag => ⟨"CHILD_COMPONENT", pathOr path, tag⟩)
  let st2 := { st1 with relations := st1.relations ++ tagRels }
  match vueCompName path vm with
  | some nm =>
    if !nm.isEmpty then
      { st2 with symbols := st2.symbols ++
        ([⟨"component", nm, "vue", none⟩] : List GSym) }
    else st2
  | none => st2

/-! #### Declared ontology node-type sets -/

def pythonNodeTypes : List String := ["function", "class", "module"]

def javascriptNodeTypes : List String := ["function", "class", "module"]

def vueNodeTypes : List String := ["component"]

def phpNodeTypes : List String := ["function", "class"]

def bashNodeTypes : List String := ["function", "variable", "script"]

def cNodeTypes : List String := ["function", "struct"]

def rustNodeTypes : List String := ["function", "struct", "enum", "trait"]

/-! #### Symbol-type invariants of the JS and PHP walks -/

/-- Every symbol accumulated so far is a `function` or a `class`. -/
def WalkSymInv (st : WalkAcc) : Prop :=
  ∀ s ∈ st.symbols, s.stype = "function" ∨ s.stype = "class"

/-- The concrete Vue input of the C6 counterexample: a `.vue` file whose
script block declares `function foo() {}`, parsed with the grammar engine
unavailable (so the JS fallback captures `foo`), with an explicit
`name: 'App'` field. -/
def vueDemoResult : PResult :=
  vueParse (some "App.vue") ⟨"function foo() {}", [], [], some "App"⟩ none
    (fun _ => none) ⟨["foo"], [], [], []⟩

/-! ## Theorems -/

theorem resolveCalls_append (index : String → Option String) (rels : List Rel)
    (acc : List CallEdge) :
    rels.foldl (resolveStep index) acc = acc ++ rels.foldl (resolveStep index) [] := by
  induction rels generalizing acc with
  | nil => simp
  | cons r rs ih =>
    simp only [List.foldl_cons]
    rw [ih, ih (resolveStep index [] r)]
    simp only [resolveStep]
    split
    · cases hs : index r.source <;> cases ht : index r.target <;> simp
    · simp

theorem resolveCalls_cons (index : String → Option String) (r : Rel) (rs : List Rel) :
    resolveCalls index (r :: rs) = resolveStep index [] r ++ resolveCalls index rs := by
  simp only [resolveCalls, List.foldl_cons]
  exact resolveCalls_append index rs (resolveStep index [] r)

theorem resolveStep_length (index : String → Option String) (r : Rel) :
    (resolveStep index [] r).length = if emits index r then 1 else 0 := by
  unfold resolveStep emits
  by_cases hty : r.type = "CALLS"
  · simp only [if_pos hty]
    split
    · rename_i s t hs ht
      simp [hs, ht, hty]
    · rename_i hno
      cases hs : index r.source with
      | none => simp [hs]
      | some s =>
        cases ht : index r.target with
        | none => simp [hs, ht]
        | some t => exact (hno s t hs ht).elim
  · simp [hty]

theorem resolveStep_mem (index : String → Option String) (r : Rel) (e : CallEdge)
    (he : e ∈ resolveStep index [] r) :
    r.type = "CALLS" ∧ index r.source = some e.source_id ∧
      index r.target = some e.target_id := by
  unfold resolveStep at he
  by_cases hty : r.type = "CALLS"
  · rw [if_pos hty] at he
    refine ⟨hty, ?_⟩
    revert he
    split
    · rename_i s t hs ht
      intro he
      simp only [List.nil_append, List.mem_singleton] at he
      subst he
      exact ⟨hs, ht⟩
    · intro he
      simp at he
  · rw [if_neg hty] at he
    simp at he

/-- C1.  (i) `resolve_calls` emits exactly one edge per `CALLS` relation whose
source and target keys are both present in the symbol index, and none for any
other relation; (ii) every emitted edge is resolved from such a relation; and
(iii) in the spec scenario (a single `CALLS` relation from the calling scope
in file `b` to `foo`), an index containing both keys yields exactly one edge
from the caller's id to `foo`'s id, while an index missing `foo` yields no
edge. -/
theorem resolve_calls_emits_iff_both_in_index :
    (∀ (index : String → Option String) (rels : List Rel),
      (resolveCalls index rels).length = rels.countP (emits index)) ∧
    (∀ (index : String → Option String) (rels : List Rel) (e : CallEdge),
      e ∈ resolveCalls index rels →
      ∃ r ∈ rels, r.type = "CALLS" ∧ index r.source = some e.source_id ∧
        index r.target = some e.target_id) ∧
    (resolveCalls demoIndex [⟨"CALLS", "b.py::caller", "foo"⟩] =
      [⟨"id-caller", "id-foo"⟩] ∧
     resolveCalls demoIndexNoFoo [⟨"CALLS", "b.py::caller", "foo"⟩] = []) := by
  refine ⟨?_, ?_, by decide, by decide⟩
  · intro index rels
    induction rels with
    | nil => rfl
    | cons r rs ih =>
      rw [resolveCalls_cons, List.countP_cons, List.length_append,
        resolveStep_length, ih]
      by_cases h : emits index r = true <;> simp [h, Nat.add_comm]
  · intro index rels e he
    induction rels with
    | nil => simp [resolveCalls] at he
    | cons r rs ih =>
      rw [resolveCalls_cons, List.mem_append] at he
      rcases he with he | he
      · exact ⟨r, by simp, resolveStep_mem index r e he⟩
      · obtain ⟨r', hr', hprop⟩ := ih he
        exact ⟨r', by simp [hr'], hprop⟩

/-- Closed witness for C1: the completeness direction applied to the
concrete scenario edge. -/
theorem resolve_calls_emits_iff_both_in_index_witness :
    ∃ r ∈ [(⟨"CALLS", "b.py::caller", "foo"⟩ : Rel)], r.type = "CALLS" ∧
      demoIndex r.source = some "id-caller" ∧ demoIndex r.target = some "id-foo" :=
  resolve_calls_emits_iff_both_in_index.2.1 demoIndex
    [⟨"CALLS", "b.py::caller", "foo"⟩] ⟨"id-caller", "id-foo"⟩ (by decide)

/-- C10.  With `content` present but equal to `""` (and any language, in
particular a supported one), `parse_single` returns the 400
`missingFields` response, and in particular never reaches the
parser-invoking `ok` outcome. -/
theorem parse_single_empty_content_is_400 (registry : String → Bool)
    (language path : Option String) (hlang : pyTruthy language = true) :
    parseSingle registry language (some "") path = .missingFields ∧
      ∀ l c p, parseSingle registry language (some "") path ≠ .ok l c p := by
  have h : parseSingle registry language (some "") path = .missingFields := by
    unfold parseSingle
    simp [pyTruthy, String.isEmpty]
  exact ⟨h, fun l c p hc => by rw [h] at hc; exact ParseResponse.noConfusion hc⟩

/-- Closed witness for C10: a supported language (`python` in a singleton
registry) with empty content. -/
theorem parse_single_empty_content_is_400_witness :
    parseSingle (fun l => l == "python") (some "python") (some "") none =
      .missingFields :=
  (parse_single_empty_content_is_400 (fun l => l == "python") (some "python")
    none (by decide)).1

theorem typeCount_le_totalEdges (rels : List Rel) (t : String) :
    typeCount rels t ≤ totalEdges rels :=
  List.countP_le_length _

theorem countP_disjoint_le_length {α : Type} (l : List α) (p q : α → Bool)
    (h : ∀ a, ¬(p a = true ∧ q a = true)) :
    l.countP p + l.countP q ≤ l.length := by
  induction l with
  | nil => simp
  | cons a l ih =>
    rw [List.countP_cons, List.countP_cons, List.length_cons]
    by_cases hp : p a = true
    · have hq : ¬q a = true := fun hq => h a ⟨hp, hq⟩
      rw [if_pos hp, if_neg hq]
      omega
    · rw [if_neg hp]
      by_cases hq : q a = true
      · rw [if_pos hq]; omega
      · rw [if_neg hq]; omega

theorem typeCount_add_typeCount_le (rels : List Rel) (A B : String) (hAB : A ≠ B) :
    typeCount rels A + typeCount rels B ≤ totalEdges rels := by
  refine countP_disjoint_le_length _ _ _ ?_
  rintro r ⟨hA, hB⟩
  simp only [beq_iff_eq] at hA hB
  exact hAB (hA ▸ hB ▸ rfl)

theorem le_foldl_max (f : String → ℝ) (l : List String) (a : ℝ) :
    a ≤ l.foldl (fun m t => max m (f t)) a := by
  induction l generalizing a with
  | nil => exact le_refl a
  | cons x l ih => exact le_trans (le_max_left a (f x)) (ih (max a (f x)))

theorem mem_le_foldl_max (f : String → ℝ) (l : List String) :
    ∀ (a : ℝ) (x : String), x ∈ l → f x ≤ l.foldl (fun m t => max m (f t)) a := by
  induction l with
  | nil => intro a x hx; cases hx
  | cons y l ih =>
    intro a x hx
    rcases List.mem_cons.mp hx with h | h
    · subst h
      exact le_trans (le_max_right a (f x)) (le_foldl_max f l (max a (f x)))
    · exact ih _ x h

theorem mem_edgeTypes_of_typeCount_pos (rels : List Rel) (t : String)
    (h : 0 < typeCount rels t) : t ∈ edgeTypes rels := by
  obtain ⟨r, hr, hrt⟩ := List.countP_pos.mp h
  rw [beq_iff_eq] at hrt
  exact List.mem_dedup.mpr (List.mem_map.mpr ⟨r, hr, hrt⟩)

theorem rawWeight_nonneg (rels : List Rel) (s : ℝ) (t : String) (hs : 0 ≤ s)
    (ht : 0 < typeCount rels t) : 0 ≤ rawWeight rels s t := by
  apply Real.log_nonneg
  rw [le_div_iff (by positivity), one_mul]
  have := typeCount_le_totalEdges rels t
  have : (typeCount rels t : ℝ) ≤ (totalEdges rels : ℝ) := by exact_mod_cast this
  linarith

theorem rawWeight_pos (rels : List Rel) (s : ℝ) (t : String) (hs : 0 ≤ s)
    (ht : 0 < typeCount rels t) (htN : typeCount rels t < totalEdges rels) :
    0 < rawWeight rels s t := by
  apply Real.log_pos
  rw [lt_div_iff (by positivity), one_mul]
  have : (typeCount rels t : ℝ) < (totalEdges rels : ℝ) := by exact_mod_cast htN
  linarith

theorem rawWeight_antitone (rels : List Rel) (s : ℝ) (A B : String) (hs : 0 ≤ s)
    (hA : 0 < typeCount rels A) (hle : typeCount rels A ≤ typeCount rels B) :
    rawWeight rels s B ≤ rawWeight rels s A := by
  have hca : (0 : ℝ) < (typeCount rels A : ℝ) + s :=
    add_pos_of_pos_of_nonneg (by exact_mod_cast hA) hs
  have hcb : (0 : ℝ) < (typeCount rels B : ℝ) + s :=
    add_pos_of_pos_of_nonneg (by exact_mod_cast lt_of_lt_of_le hA hle) hs
  have hN : 0 < totalEdges rels := lt_of_lt_of_le hA (typeCount_le_totalEdges rels A)
  have hNs : (0 : ℝ) < (totalEdges rels : ℝ) + s :=
    add_pos_of_pos_of_nonneg (by exact_mod_cast hN) hs
  apply Real.log_le_log (div_pos hNs hcb)
  have hcast : (typeCount rels A : ℝ) ≤ (typeCount rels B : ℝ) := by exact_mod_cast hle
  gcongr

/-- C4.  After `fit` on any relation set (with nonnegative smoothing, as in
the default `1.0`), for any two edge types `A`, `B` occurring in the set
with `count(A) < count(B)` the rarer type's weight is at least the common
type's weight, and every `get_weight` value lies in `[0, 1]`. -/
theorem edge_weight_monotone_and_bounded (rels : List Rel) (s : ℝ) (A B : String)
    (hs : 0 ≤ s) (hA : 0 < typeCount rels A)
    (hAB : typeCount rels A < typeCount rels B) :
    getWeight rels s B ≤ getWeight rels s A ∧
      ∀ t, 0 ≤ getWeight rels s t ∧ getWeight rels s t ≤ 1 := by
  have hB : 0 < typeCount rels B := lt_trans hA hAB
  have hANe : A ≠ B := fun h => by rw [h] at hAB; exact lt_irrefl _ hAB
  have hN : 0 < totalEdges rels := lt_of_lt_of_le hA (typeCount_le_totalEdges rels A)
  have hAN : typeCount rels A < totalEdges rels := by
    have := typeCount_add_typeCount_le rels A B hANe
    omega
  have hmax : 0 < maxWeight rels s :=
    lt_of_lt_of_le (rawWeight_pos rels s A hs hA hAN)
      (mem_le_foldl_max _ _ _ _ (mem_edgeTypes_of_typeCount_pos rels A hA))
  have hbound : ∀ t, 0 ≤ getWeight rels s t ∧ getWeight rels s t ≤ 1 := by
    intro t
    unfold getWeight
    rcases Nat.eq_zero_or_pos (totalEdges rels) with h0 | h0
    · simp [h0]
    rw [if_neg (Nat.pos_iff_ne_zero.mp h0)]
    rcases Nat.eq_zero_or_pos (typeCount rels t) with hc | hc
    · simp [hc]
    rw [if_neg (Nat.pos_iff_ne_zero.mp hc), if_pos hmax]
    constructor
    · exact div_nonneg (rawWeight_nonneg rels s t hs hc) (le_of_lt hmax)
    · rw [div_le_one hmax]
      exact mem_le_foldl_max _ _ _ _ (mem_edgeTypes_of_typeCount_pos rels t hc)
  refine ⟨?_, hbound⟩
  unfold getWeight
  rw [if_neg (Nat.pos_iff_ne_zero.mp hN), if_neg (Nat.pos_iff_ne_zero.mp hN),
    if_neg (Nat.pos_iff_ne_zero.mp hA), if_neg (Nat.pos_iff_ne_zero.mp hB),
    if_pos hmax, if_pos hmax]
  rw [div_le_div_iff hmax hmax]
  exact mul_le_mul_of_nonneg_right
    (rawWeight_antitone rels s A B hs hA (le_of_lt hAB)) (le_of_lt hmax)

/-- Closed witness for C4: the spec's weighting-statistics relation set
`{CALLS: 2, EXTENDS: 1}` with the default smoothing `1.0`;
`EXTENDS` is rarer than `CALLS`. -/
theorem edge_weight_monotone_and_bounded_witness :
    getWeight [⟨"CALLS", "a", "b"⟩, ⟨"CALLS", "a", "c"⟩, ⟨"EXTENDS", "a", "d"⟩]
        1 "CALLS" ≤
      getWeight [⟨"CALLS", "a", "b"⟩, ⟨"CALLS", "a", "c"⟩, ⟨"EXTENDS", "a", "d"⟩]
        1 "EXTENDS" :=
  (edge_weight_monotone_and_bounded
    [⟨"CALLS", "a", "b"⟩, ⟨"CALLS", "a", "c"⟩, ⟨"EXTENDS", "a", "d"⟩] 1
    "EXTENDS" "CALLS" (by norm_num) (by decide) (by decide)).1

theorem structuralWeight_bounds (rels : List Rel) (t : String) :
    0 ≤ structuralWeight rels t ∧ structuralWeight rels t ≤ 1 := by
  unfold structuralWeight
  rcases Nat.eq_zero_or_pos (totalEdgesM rels) with h0 | h0
  · simp [h0]
  rw [if_neg (Nat.pos_iff_ne_zero.mp h0)]
  rcases Nat.eq_zero_or_pos (edgeCountM rels t) with hc | hc
  · simp [hc]
  rw [if_neg (Nat.pos_iff_ne_zero.mp hc)]
  have hcN : edgeCountM rels t ≤ totalEdgesM rels := List.countP_le_length _
  by_cases hlog : 0 < Real.log ((totalEdgesM rels : ℝ) + 1)
  · rw [if_pos hlog]
    have hc1 : (0 : ℝ) < (edgeCountM rels t : ℝ) + 1 := by positivity
    have hnum0 : 0 ≤ Real.log (((totalEdgesM rels : ℝ) + 1) / ((edgeCountM rels t : ℝ) + 1)) := by
      apply Real.log_nonneg
      rw [le_div_iff hc1, one_mul]
      have : (edgeCountM rels t : ℝ) ≤ (totalEdgesM rels : ℝ) := by exact_mod_cast hcN
      linarith
    have hnum1 : Real.log (((totalEdgesM rels : ℝ) + 1) / ((edgeCountM rels t : ℝ) + 1)) ≤
        Real.log ((totalEdgesM rels : ℝ) + 1) := by
      apply Real.log_le_log (by positivity)
      rw [div_le_iff hc1]
      have h1 : (0 : ℝ) ≤ (edgeCountM rels t : ℝ) := Nat.cast_nonneg _
      have h2 : (0 : ℝ) ≤ (totalEdgesM rels : ℝ) := Nat.cast_nonneg _
      nlinarith
    exact ⟨div_nonneg hnum0 (le_of_lt hlog), by rw [div_le_one hlog]; exact hnum1⟩
  · rw [if_neg hlog]
    norm_num

theorem functionalWeight_bounds (t : String) :
    0 ≤ functionalWeight t ∧ functionalWeight t ≤ 1 := by
  unfold functionalWeight
  split_ifs <;> norm_num

theorem nodeCentrality_nonneg (rels : List Rel) (node : String) :
    0 ≤ nodeCentrality rels node := by
  unfold nodeCentrality
  apply div_nonneg
  · apply Real.log_nonneg
    have : (0 : ℝ) ≤ ((outDegree rels node + inDegree rels node : ℕ) : ℝ) :=
      Nat.cast_nonneg _
    linarith
  · apply Real.log_nonneg
    norm_num

theorem centralityWeight_bounds (rels : List Rel) (src tgt : String) :
    0 ≤ centralityWeight rels src tgt ∧ centralityWeight rels src tgt ≤ 1 := by
  unfold centralityWeight
  refine ⟨le_min (by norm_num) ?_, min_le_left _ _⟩
  have hs := nodeCentrality_nonneg rels src
  have ht : (0 : ℝ) ≤ if tgt.isEmpty then 0 else nodeCentrality rels tgt := by
    split
    · exact le_refl 0
    · exact nodeCentrality_nonneg rels tgt
  exact div_nonneg (by linarith) (by norm_num)

theorem depthWeight_bounds (src tgt : String) :
    0 ≤ depthWeight src tgt ∧ depthWeight src tgt ≤ 1 := by
  unfold depthWeight
  refine ⟨le_min (by norm_num) (by positivity), min_le_left _ _⟩

theorem dimValue_nonneg (m : ℝ × ℝ × ℝ × ℝ)
    (hm : 0 ≤ m.1 ∧ 0 ≤ m.2.1 ∧ 0 ≤ m.2.2.1 ∧ 0 ≤ m.2.2.2)
    (dim : String) (v : ℝ) (hv : dimValue m dim = some v) : 0 ≤ v := by
  unfold dimValue at hv
  split_ifs at hv <;> simp_all

theorem combined_foldl_nonneg (m : ℝ × ℝ × ℝ × ℝ)
    (hm : 0 ≤ m.1 ∧ 0 ≤ m.2.1 ∧ 0 ≤ m.2.2.1 ∧ 0 ≤ m.2.2.2) :
    ∀ (ws : List (String × ℝ)) (acc : ℝ), (∀ p ∈ ws, 0 ≤ p.2) → 0 ≤ acc →
      0 ≤ ws.foldl (fun acc p =>
        match dimValue m p.1 with
        | some v => acc + v * p.2
        | none => acc) acc := by
  intro ws
  induction ws with
  | nil => intro acc _ hacc; exact hacc
  | cons p ps ih =>
    intro acc hws hacc
    rw [List.foldl_cons]
    apply ih _ (fun q hq => hws q (List.mem_cons_of_mem p hq))
    cases hv : dimValue m p.1 with
    | none => exact hacc
    | some v =>
      have hv0 := dimValue_nonneg m hm p.1 v hv
      have hw0 := hws p (List.mem_cons_self p ps)
      positivity

/-- C5.  For a fitted `MultiMetricEdgeWeighting` and any edge key present in
the fitted relation set, the structural, functional, centrality and depth
dimensions and the combined weight all lie in `[0, 1]`, for any caller
weight entries with nonnegative values — in particular also when they sum
to more than `1` (the combined score is clamped by `min(1.0, ...)`). -/
theorem multi_metric_weights_bounded (rels : List Rel) (src t tgt : String)
    (ws : List (String × ℝ))
    (hfit : fittedEdge rels src t tgt = true)
    (hws : ∀ p ∈ ws, 0 ≤ p.2) :
    (0 ≤ structuralWeight rels t ∧ structuralWeight rels t ≤ 1) ∧
    (0 ≤ functionalWeight t ∧ functionalWeight t ≤ 1) ∧
    (0 ≤ centralityWeight rels src tgt ∧ centralityWeight rels src tgt ≤ 1) ∧
    (0 ≤ depthWeight src tgt ∧ depthWeight src tgt ≤ 1) ∧
    (0 ≤ getCombinedWeight rels src t tgt ws ∧
      getCombinedWeight rels src t tgt ws ≤ 1) := by
  refine ⟨structuralWeight_bounds rels t, functionalWeight_bounds t,
    centralityWeight_bounds rels src tgt, depthWeight_bounds src tgt, ?_⟩
  unfold getCombinedWeight metricsOf
  rw [if_pos hfit]
  refine ⟨le_min (by norm_num) ?_, min_le_left _ _⟩
  exact combined_foldl_nonneg _
    ⟨(structuralWeight_bounds rels t).1, (functionalWeight_bounds t).1,
      (centralityWeight_bounds rels src tgt).1, (depthWeight_bounds src tgt).1⟩
    ws 0 hws le_rfl

/-- Closed witness for C5: a one-edge relation set and caller weights
summing to `2`. -/
theorem multi_metric_weights_bounded_witness :
    0 ≤ getCombinedWeight [⟨"CALLS", "a::b", "c"⟩] "a::b" "CALLS" "c"
        [("structural", 1), ("functional", 1)] ∧
      getCombinedWeight [⟨"CALLS", "a::b", "c"⟩] "a::b" "CALLS" "c"
        [("structural", 1), ("functional", 1)] ≤ 1 :=
  (multi_metric_weights_bounded [⟨"CALLS", "a::b", "c"⟩] "a::b" "CALLS" "c"
    [("structural", 1), ("functional", 1)] (by decide)
    (by intro p hp; fin_cases hp <;> norm_num)).2.2.2.2

theorem updateProgress_fields (st : TPState) :
    (updateProgress st).nodes = st.nodes ∧ (updateProgress st).edges = st.edges ∧
    (updateProgress st).nodeIds = st.nodeIds ∧
    (updateProgress st).symbols = st.symbols ∧
    (updateProgress st).nextId = st.nextId := by
  unfold updateProgress sendProgress
  by_cases h0 : st.total = 0
  · simp [h0]
  · rw [if_neg h0]
    dsimp only
    split <;> exact ⟨rfl, rfl, rfl, rfl, rfl⟩

theorem lookupD_mem (m : List (String × Nat)) (k : String) (v : Nat)
    (h : lookupD m k = some v) : ∃ p ∈ m, p.2 = v := by
  unfold lookupD at h
  cases hf : m.find? (fun p => p.1 == k) with
  | none => rw [hf] at h; simp at h
  | some p =>
    rw [hf] at h
    simp at h
    exact ⟨p, List.mem_of_find?_eq_some hf, h⟩

theorem dictSet_mem (m : List (String × Nat)) (k : String) (v : Nat)
    (q : String × Nat) (h : q ∈ dictSet m k v) : q = (k, v) ∨ q ∈ m := by
  unfold dictSet at h
  rcases List.mem_cons.mp h with h | h
  · exact Or.inl h
  · exact Or.inr (List.mem_of_mem_filter h)

theorem scan_fold_fields (fid : Nat) (content : String) :
    ∀ (l : List (String × Nat)) (acc : TPState),
      (l.foldl (scanStep fid content) acc).nodes = acc.nodes ∧
      (l.foldl (scanStep fid content) acc).nodeIds = acc.nodeIds ∧
      (l.foldl (scanStep fid content) acc).symbols = acc.symbols ∧
      (l.foldl (scanStep fid content) acc).sent = acc.sent ∧
      (l.foldl (scanStep fid content) acc).lastPercent = acc.lastPercent ∧
      ∀ e ∈ (l.foldl (scanStep fid content) acc).edges,
        e ∈ acc.edges ∨ (e.source_id = fid ∧ ∃ p ∈ l, e.target_id = p.2) := by
  intro l
  induction l with
  | nil => intro acc; exact ⟨rfl, rfl, rfl, rfl, rfl, fun e he => Or.inl he⟩
  | cons p ps ih =>
    intro acc
    rw [List.foldl_cons]
    obtain ⟨h1, h2, h3, h4, h5, h6⟩ := ih (scanStep fid content acc p)
    have hstep : (scanStep fid content acc p).nodes = acc.nodes ∧
        (scanStep fid content acc p).nodeIds = acc.nodeIds ∧
        (scanStep fid content acc p).symbols = acc.symbols ∧
        (scanStep fid content acc p).sent = acc.sent ∧
        (scanStep fid content acc p).lastPercent = acc.lastPercent := by
      unfold scanStep
      split <;> exact ⟨rfl, rfl, rfl, rfl, rfl⟩
    refine ⟨h1.trans hstep.1, h2.trans hstep.2.1, h3.trans hstep.2.2.1,
      h4.trans hstep.2.2.2.1, h5.trans hstep.2.2.2.2, ?_⟩
    intro e he
    rcases h6 e he with h | h
    · unfold scanStep at h
      split at h
      · simp only [List.mem_append, List.mem_singleton] at h
        rcases h with h | h
        · exact Or.inl h
        · subst h
          exact Or.inr ⟨rfl, p, List.mem_cons_self p ps, rfl⟩
      · exact Or.inl h
    · exact Or.inr ⟨h.1, by
        obtain ⟨q, hq, hqe⟩ := h.2
        exact ⟨q, List.mem_cons_of_mem p hq, hqe⟩⟩

theorem addNode_fields (st : TPState) (label nodeName path ntype : String) :
    (addNode st label nodeName path ntype).nodes =
      st.nodes ++ [⟨st.nextId, label, nodeName, path⟩] ∧
    (addNode st label nodeName path ntype).nodeIds =
      dictSet st.nodeIds path st.nextId ∧
    (addNode st label nodeName path ntype).edges = st.edges ∧
    (addNode st label nodeName path ntype).symbols = st.symbols := by
  unfold addNode
  obtain ⟨h1, h2, h3, h4, _⟩ := updateProgress_fields
    { st with
      nextId := st.nextId + 1
      nodeIds := dictSet st.nodeIds path st.nextId
      nodes := st.nodes ++ [⟨st.nextId, label, nodeName, path⟩]
      processed := st.processed + 1 }
  exact ⟨h1, h3, h2, h4⟩

theorem applyOp_edgeInv (st : TPState) (op : TPOp) (h : EdgeInv st) :
    EdgeInv (applyOp st op) := by
  obtain ⟨hids, hsym, hedge⟩ := h
  cases op with
  | ensureNode label nodeName path ntype =>
    simp only [applyOp]
    split
    · obtain ⟨h1, h2, h3, h4⟩ := addNode_fields st label nodeName path ntype
      have hgrow : ∀ i ∈ nodeIdsOf st, i ∈ nodeIdsOf (addNode st label nodeName path ntype) := by
        intro i hi
        unfold nodeIdsOf at hi ⊢
        rw [h1, List.map_append]
        exact List.mem_append_left _ hi
      have hnew : st.nextId ∈ nodeIdsOf (addNode st label nodeName path ntype) := by
        unfold nodeIdsOf
        rw [h1, List.map_append]
        simp
      refine ⟨?_, ?_, ?_⟩
      · intro p hp
        rw [h2] at hp
        rcases dictSet_mem _ _ _ _ hp with hq | hq
        · subst hq; exact hnew
        · exact hgrow _ (hids p hq)
      · intro p hp
        rw [h4] at hp
        exact hgrow _ (hsym p hp)
      · intro e he
        rw [h3] at he
        exact ⟨hgrow _ (hedge e he).1, hgrow _ (hedge e he).2⟩
    · exact ⟨hids, hsym, hedge⟩
  | containsEdge src tgt =>
    simp only [applyOp]
    unfold addEdge
    cases hsrc : lookupD st.nodeIds src with
    | none => exact ⟨hids, hsym, hedge⟩
    | some sid =>
      cases htgt : lookupD st.nodeIds tgt with
      | none => exact ⟨hids, hsym, hedge⟩
      | some tid =>
        refine ⟨hids, hsym, ?_⟩
        intro e he
        simp only [List.mem_append, List.mem_singleton] at he
        rcases he with he | he
        · exact hedge e he
        · subst he
          obtain ⟨p, hp, hpv⟩ := lookupD_mem _ _ _ hsrc
          obtain ⟨q, hq, hqv⟩ := lookupD_mem _ _ _ htgt
          exact ⟨hpv ▸ hids p hp, hqv ▸ hids q hq⟩
  | symNode fpath stype sname =>
    simp only [applyOp]
    have hgrow : ∀ i ∈ nodeIdsOf st, i ∈ nodeIdsOf st ++ [st.nextId] :=
      fun i hi => List.mem_append_left _ hi
    have hnew : st.nextId ∈ nodeIdsOf st ++ [st.nextId] := by simp
    -- after the node append, `nodeIdsOf` of every later state is
    -- `nodeIdsOf st ++ [st.nextId]`
    split
    · -- truthy name: symbols also updated
      rename_i hname
      constructor
      · intro p hp
        revert hp
        split
        · intro hp
          unfold nodeIdsOf
          simp only [List.map_append]
          exact List.mem_append_left _ (hids p hp)
        · intro hp
          unfold nodeIdsOf
          simp only [List.map_append]
          exact List.mem_append_left _ (hids p hp)
      · constructor
        · intro p hp
          revert hp
          split
          · rename_i fid hfid
            intro hp
            rcases dictSet_mem _ _ _ _ hp with hq | hq
            · subst hq
              unfold nodeIdsOf
              simp
            · unfold nodeIdsOf
              simp only [List.map_append]
              exact List.mem_append_left _ (hsym p hq)
          · intro hp
            rcases dictSet_mem _ _ _ _ hp with hq | hq
            · subst hq
              unfold nodeIdsOf
              simp
            · unfold nodeIdsOf
              simp only [List.map_append]
              exact List.mem_append_left _ (hsym p hq)
        · intro e he
          revert he
          split
          · rename_i fid hfid
            intro he
            simp only [List.mem_append, List.mem_singleton] at he
            unfold nodeIdsOf
            simp only [List.map_append]
            rcases he with he | he
            · exact ⟨List.mem_append_left _ (hedge e he).1,
                List.mem_append_left _ (hedge e he).2⟩
            · subst he
              obtain ⟨p, hp, hpv⟩ := lookupD_mem _ _ _ hfid
              exact ⟨List.mem_append_left _ (hpv ▸ hids p hp), by simp⟩
          · intro he
            unfold nodeIdsOf
            simp only [List.map_append]
            exact ⟨List.mem_append_left _ (hedge e he).1,
              List.mem_append_left _ (hedge e he).2⟩
    · -- falsy name: symbols untouched
      constructor
      · intro p hp
        revert hp
        split <;> intro hp <;>
          · unfold nodeIdsOf
            simp only [List.map_append]
            exact List.mem_append_left _ (hids p hp)
      · constructor
        · intro p hp
          revert hp
          split <;> intro hp <;>
            · unfold nodeIdsOf
              simp only [List.map_append]
              exact List.mem_append_left _ (hsym p hp)
        · intro e he
          revert he
          split
          · rename_i fid hfid
            intro he
            simp only [List.mem_append, List.mem_singleton] at he
            unfold nodeIdsOf
            simp only [List.map_append]
            rcases he with he | he
            · exact ⟨List.mem_append_left _ (hedge e he).1,
                List.mem_append_left _ (hedge e he).2⟩
            · subst he
              obtain ⟨p, hp, hpv⟩ := lookupD_mem _ _ _ hfid
              exact ⟨List.mem_append_left _ (hpv ▸ hids p hp), by simp⟩
          · intro he
            unfold nodeIdsOf
            simp only [List.map_append]
            exact ⟨List.mem_append_left _ (hedge e he).1,
              List.mem_append_left _ (hedge e he).2⟩
  | scanFile fpath content =>
    simp only [applyOp]
    cases hfid : lookupD st.nodeIds fpath with
    | none => exact ⟨hids, hsym, hedge⟩
    | some fid =>
      obtain ⟨h1, h2, h3, _, _, h6⟩ := scan_fold_fields fid content st.symbols st
      have hid : nodeIdsOf (st.symbols.foldl (scanStep fid content) st) = nodeIdsOf st := by
        unfold nodeIdsOf
        rw [h1]
      refine ⟨?_, ?_, ?_⟩
      · intro p hp
        rw [h2] at hp
        rw [hid]
        exact hids p hp
      · intro p hp
        rw [h3] at hp
        rw [hid]
        exact hsym p hp
      · intro e he
        rw [hid]
        rcases h6 e he with h | h
        · exact hedge e h
        · obtain ⟨q, hq, hqe⟩ := h.2
          obtain ⟨p, hp, hpv⟩ := lookupD_mem _ _ _ hfid
          exact ⟨h.1 ▸ hpv ▸ hids p hp, hqe ▸ hsym q hq⟩

theorem runOps_edgeInv (ops : List TPOp) :
    ∀ (st : TPState), EdgeInv st → EdgeInv (runOps st ops) := by
  induction ops with
  | nil => intro st h; exact h
  | cons op ops ih =>
    intro st h
    exact ih (applyOp st op) (applyOp_edgeInv st op h)

theorem initState_edgeInv (total : Nat) : EdgeInv (initState total) :=
  ⟨fun p hp => absurd hp (List.not_mem_nil p),
   fun p hp => absurd hp (List.not_mem_nil p),
   fun e he => absurd he (List.not_mem_nil e)⟩

/-- C9.  Every edge accumulated by the orchestrator during a run references
node ids created during that run (phase-1 `CONTAINS` edges, `HAS_SYMBOL`
edges, and phase-2 `USES_SYMBOL` edges alike), and `_add_edge` drops any
edge whose source or target path is absent from the node-id map, leaving
the state unchanged. -/
theorem traverse_edges_endpoints_created :
    (∀ (cfg : TPConfig) (rootPath : String) (t : FSTree),
      ∀ e ∈ (traverseTree cfg rootPath t).edges,
        e.source_id ∈ nodeIdsOf (traverseTree cfg rootPath t) ∧
        e.target_id ∈ nodeIdsOf (traverseTree cfg rootPath t)) ∧
    (∀ (st : TPState) (src tgt ty : String),
      lookupD st.nodeIds src = none ∨ lookupD st.nodeIds tgt = none →
      addEdge st src tgt ty = st) := by
  constructor
  · intro cfg rootPath t e he
    unfold traverseTree at he ⊢
    have hinv := runOps_edgeInv (phase2Ops rootPath t) _
      (runOps_edgeInv (dirOps cfg rootPath t) _
        (initState_edgeInv (countItems cfg t)))
    simp only [sendProgress] at he ⊢
    exact hinv.2.2 e he
  · intro st src tgt ty h
    unfold addEdge
    rcases h with h | h
    · rw [h]
    · rw [h]
      cases lookupD st.nodeIds src <;> rfl

/-- Closed witness for C9: the `CONTAINS` edge of a one-file project
references the two created node ids. -/
theorem traverse_edges_endpoints_created_witness :
    (⟨0, 1, "CONTAINS"⟩ : GEdge).source_id ∈
      nodeIdsOf (traverseTree ⟨fun s => s == ".git", fun _ => true, fun _ _ => []⟩
        "/project" (.dir "project" [] [⟨"a.txt", ""⟩])) ∧
    (⟨0, 1, "CONTAINS"⟩ : GEdge).target_id ∈
      nodeIdsOf (traverseTree ⟨fun s => s == ".git", fun _ => true, fun _ _ => []⟩
        "/project" (.dir "project" [] [⟨"a.txt", ""⟩])) :=
  traverse_edges_endpoints_created.1
    ⟨fun s => s == ".git", fun _ => true, fun _ _ => []⟩ "/project"
    (.dir "project" [] [⟨"a.txt", ""⟩]) ⟨0, 1, "CONTAINS"⟩ (by decide)

/-- C3 counterexample.  `count_items` does not count the root directory,
but phase 1 creates a node (and a `processed_items` increment) for it, so
`processed` overshoots `total`: with one file, the values pushed are
`100` (root folder node), `200` (file node), and then the unconditional
final `100`.  The pushed sequence is not non-decreasing and `100` is
pushed twice, refuting the claim as stated. -/
theorem progress_counterexample :
    (traverseTree progressDemoCfg "/project" progressDemoTree).sent =
      [100, 200, 100] ∧
    ¬ List.Chain' (· ≤ ·)
      (traverseTree progressDemoCfg "/project" progressDemoTree).sent ∧
    ((traverseTree progressDemoCfg "/project" progressDemoTree).sent.count 100 ≠ 1) := by
  have hs : (traverseTree progressDemoCfg "/project" progressDemoTree).sent =
      [100, 200, 100] := by decide
  refine ⟨hs, ?_, ?_⟩
  · intro hch
    rw [hs] at hch
    simp only [List.chain'_cons] at hch
    omega
  · rw [hs]
    decide

theorem sentInv_updateProgress (st : TPState) (h : SentInv st) :
    SentInv (updateProgress st) := by
  unfold updateProgress
  by_cases h0 : st.total = 0
  · rwa [if_pos h0]
  rw [if_neg h0]
  dsimp only
  set percent := st.processed * 100 / st.total with hp
  by_cases hgt : (percent : Int) > st.lastPercent
  · rw [if_pos hgt]
    unfold sendProgress
    dsimp only
    constructor
    · rw [List.chain'_append]
      refine ⟨h.1, List.chain'_singleton _, ?_⟩
      intro x hx y hy
      simp only [List.head?_cons, Option.mem_def, Option.some.injEq] at hy
      subst hy
      have hxmem : x ∈ st.sent := by
        obtain ⟨hne, hxeq⟩ := List.mem_getLast?_eq_getLast hx
        rw [hxeq]
        exact List.getLast_mem hne
      have hxle := h.2 x hxmem
      omega
    · intro x hx
      dsimp only
      rcases List.mem_append.mp hx with hx | hx
      · have := h.2 x hx
        omega
      · simp only [List.mem_singleton] at hx
        subst hx
        exact le_refl _
  · rw [if_neg hgt]
    exact h

theorem sentInv_applyOp (st : TPState) (op : TPOp) (h : SentInv st) :
    SentInv (applyOp st op) := by
  cases op with
  | ensureNode label nodeName path ntype =>
    simp only [applyOp]
    split
    · exact sentInv_updateProgress _ h
    · exact h
  | containsEdge src tgt =>
    simp only [applyOp]
    unfold addEdge
    cases lookupD st.nodeIds src <;> cases lookupD st.nodeIds tgt <;> exact h
  | symNode fpath stype sname =>
    simp only [applyOp]
    split <;> · split <;> exact h
  | scanFile fpath content =>
    simp only [applyOp]
    cases hfid : lookupD st.nodeIds fpath with
    | none => exact h
    | some fid =>
      obtain ⟨_, _, _, h4, h5, _⟩ := scan_fold_fields fid content st.symbols st
      exact ⟨h4 ▸ h.1, fun x hx => h5 ▸ h.2 x (h4 ▸ hx)⟩

theorem sentInv_runOps (ops : List TPOp) :
    ∀ (st : TPState), SentInv st → SentInv (runOps st ops) := by
  induction ops with
  | nil => intro st h; exact h
  | cons op ops ih =>
    intro st h
    exact ih (applyOp st op) (sentInv_applyOp st op h)

/-- C3 amended.  In every run, the percent values pushed by
`update_progress` (everything except the last pushed value) are strictly
increasing, and the run ends with one further unconditional push of `100`
(which, as `progress_counterexample` shows, may repeat an earlier `100` or
follow a larger value, because `count_items` omits the root folder that
phase 1 processes). -/
theorem traverse_progress_strict_then_final_100 :
    ∀ (cfg : TPConfig) (rootPath : String) (t : FSTree),
      List.Chain' (· < ·) (traverseTree cfg rootPath t).sent.dropLast ∧
      (traverseTree cfg rootPath t).sent.getLast? = some 100 := by
  intro cfg rootPath t
  have hinv := sentInv_runOps (phase2Ops rootPath t) _
    (sentInv_runOps (dirOps cfg rootPath t) (initState (countItems cfg t))
      ⟨List.chain'_nil, fun x hx => absurd hx (List.not_mem_nil x)⟩)
  unfold traverseTree sendProgress
  dsimp only
  constructor
  · rw [List.dropLast_concat]
    exact hinv.1
  · rw [List.getLast?_concat]

theorem pyInv_append_rels (st : PyState) (rels : List PRel) (h : PyInv st)
    (hne : ∀ r ∈ rels, r.rtype ≠ "OVERRIDES") :
    PyInv { st with relations := st.relations ++ rels } := by
  refine ⟨h.1, ?_, h.2.2⟩
  intro r hr
  rcases List.mem_append.mp hr with hr | hr
  · exact h.2.1 r hr
  · exact hne r hr

theorem lookupCM_mem (m : List (String × List String)) (k : String)
    (v : List String) (h : lookupCM m k = some v) : ∃ p ∈ m, p.2 = v := by
  unfold lookupCM at h
  cases hf : m.find? (fun p => p.1 == k) with
  | none => rw [hf] at h; simp at h
  | some p =>
    rw [hf] at h
    simp at h
    exact ⟨p, List.mem_of_find?_eq_some hf, h⟩

theorem pyInv_handleImport (path : Option String) (n : TSNode) (st : PyState)
    (h : PyInv st) : PyInv (handleImport path n st) :=
  pyInv_append_rels st _ h (by intro r hr; rw [List.mem_singleton] at hr; subst hr; simp)

theorem pyInv_handleCall (n : TSNode) (st : PyState) (h : PyInv st) :
    PyInv (handleCall n st) := by
  unfold handleCall
  cases calleeOf n with
  | none => exact h
  | some fn =>
    dsimp only
    split
    · split
      · exact pyInv_append_rels st _ h (by intro r hr; rw [List.mem_singleton] at hr; subst hr; simp)
      · exact pyInv_append_rels st _ h (by intro r hr; rw [List.mem_singleton] at hr; subst hr; simp)
    · exact h

theorem pyInv_handleRaise (n : TSNode) (st : PyState) (h : PyInv st) :
    PyInv (handleRaise n st) := by
  unfold handleRaise
  cases firstChildTyped n ["identifier", "attribute", "call"] with
  | none => exact h
  | some ex =>
    dsimp only
    split
    · exact pyInv_append_rels st _ h (by intro r hr; rw [List.mem_singleton] at hr; subst hr; simp)
    · exact h

theorem pyInv_handleExcept (n : TSNode) (st : PyState) (h : PyInv st) :
    PyInv (handleExcept n st) := by
  unfold handleExcept
  cases firstChildTyped n ["identifier", "attribute"] with
  | none => exact h
  | some ex =>
    dsimp only
    split
    · exact pyInv_append_rels st _ h (by intro r hr; rw [List.mem_singleton] at hr; subst hr; simp)
    · exact h

theorem pyInv_handleYield (n : TSNode) (st : PyState) (h : PyInv st) :
    PyInv (handleYield n st) := by
  unfold handleYield
  split
  · exact pyInv_append_rels st _ h (by intro r hr; rw [List.mem_singleton] at hr; subst hr; simp)
  · exact h

theorem pyInv_handleReturn (n : TSNode) (st : PyState) (h : PyInv st) :
    PyInv (handleReturn n st) := by
  unfold handleReturn
  split
  · cases firstChildTyped n
        ["identifier", "attribute", "call", "string", "integer", "boolean"] with
    | none => exact h
    | some v =>
      dsimp only
      split
      · exact pyInv_append_rels st _ h (by intro r hr; rw [List.mem_singleton] at hr; subst hr; simp)
      · exact h
  · exact h

theorem pyInv_handleAwait (n : TSNode) (st : PyState) (h : PyInv st) :
    PyInv (handleAwait n st) := by
  unfold handleAwait
  cases firstChildTyped n ["identifier", "attribute", "call"] with
  | none => exact h
  | some v =>
    dsimp only
    split
    · exact pyInv_append_rels st _ h (by intro r hr; rw [List.mem_singleton] at hr; subst hr; simp)
    · exact h

theorem pyInv_handleWith (n : TSNode) (st : PyState) (h : PyInv st) :
    PyInv (handleWith n st) := by
  unfold handleWith
  cases withContextExpr n with
  | none => exact h
  | some ce =>
    dsimp only
    split
    · exact pyInv_append_rels st _ h (by intro r hr; rw [List.mem_singleton] at hr; subst hr; simp)
    · exact h

theorem pyInv_handleAssignment (n : TSNode) (st : PyState) (h : PyInv st) :
    PyInv (handleAssignment n st) := by
  unfold handleAssignment
  cases ((n.children.filter (fun ch =>
      ch.ntype == "identifier" || ch.ntype == "pattern_list")).getLast?).map
      TSNode.text with
  | none => exact h
  | some vn =>
    dsimp only
    split
    · exact pyInv_append_rels st _ h (by intro r hr; rw [List.mem_singleton] at hr; subst hr; simp)
    · exact h

theorem pyInv_handleAttribute (pctx : Option PCtx) (n : TSNode) (st : PyState)
    (h : PyInv st) : PyInv (handleAttribute pctx n st) := by
  unfold handleAttribute
  split
  · split
    · exact pyInv_append_rels st _ h (by intro r hr; rw [List.mem_singleton] at hr; subst hr; simp)
    · exact pyInv_append_rels st _ h (by intro r hr; rw [List.mem_singleton] at hr; subst hr; simp)
  · exact h

theorem pyInv_handleIdentifier (pt : Option String) (n : TSNode) (st : PyState)
    (h : PyInv st) : PyInv (handleIdentifier pt n st) := by
  unfold handleIdentifier
  split
  · split
    · exact pyInv_append_rels st _ h (by intro r hr; rw [List.mem_singleton] at hr; subst hr; simp)
    · exact h
  · exact h

set_option maxHeartbeats 1000000 in
theorem pyInv_dispatchLeaf (path : Option String) (pctx : Option PCtx)
    (pt : Option String) (n : TSNode) (st : PyState) (h : PyInv st) :
    PyInv (dispatchLeaf path pctx pt n st) := by
  unfold dispatchLeaf
  split
  · exact pyInv_handleImport path n st h
  split
  · exact pyInv_handleCall n st h
  split
  · exact pyInv_handleRaise n st h
  split
  · exact pyInv_handleExcept n st h
  split
  · exact pyInv_handleYield n st h
  split
  · exact pyInv_handleReturn n st h
  split
  · exact pyInv_handleAwait n st h
  split
  · exact pyInv_handleWith n st h
  split
  · exact pyInv_handleAssignment n st h
  split
  · exact pyInv_handleAttribute pctx n st h
  split
  · exact pyInv_handleIdentifier pt n st h
  exact h

theorem pyInv_funcEnter (path : Option String) (nm : String)
    (decorators : List String) (isAsync : Bool) (st : PyState) (h : PyInv st) :
    PyInv (funcEnter path nm decorators isAsync st) := by
  unfold funcEnter
  dsimp only
  have h1 : PyInv { st with symbols := st.symbols ++
      ([⟨"function", nm, some (st.scopeTop ++ "::" ++ nm), path, some isAsync⟩] :
        List PySym) } := by
    refine ⟨h.1, h.2.1, ?_⟩
    intro s hs
    rcases List.mem_append.mp hs with hs | hs
    · exact h.2.2 s hs
    · simp at hs
      subst hs
      exact Or.inl rfl
  have hdeco : ∀ r ∈ decorators.map (fun d =>
      (⟨"DECORATES", d, st.scopeTop ++ "::" ++ nm⟩ : PRel)),
      r.rtype ≠ "OVERRIDES" := by
    intro r hr
    simp only [List.mem_map] at hr
    obtain ⟨d, _, hd⟩ := hr
    subst hd
    simp
  have h2 := pyInv_append_rels _ _ h1 hdeco
  -- the OVERRIDES site is dead: the looked-up method set is empty
  split
  · rename_i cc hcc
    split
    · rename_i ms hms
      have hempty : ms = [] := by
        obtain ⟨p, hp, hpv⟩ := lookupCM_mem _ _ _ hms
        rw [← hpv]
        exact h2.1 p hp
      rw [hempty]
      simp only [List.contains_nil, Bool.false_eq_true, if_false]
      exact ⟨h2.1, h2.2.1, h2.2.2⟩
    · exact ⟨h2.1, h2.2.1, h2.2.2⟩
  · exact ⟨h2.1, h2.2.1, h2.2.2⟩

theorem pyInv_classEnter (path : Option String) (nm : String)
    (decorators : List String) (n : TSNode) (st : PyState) (h : PyInv st) :
    PyInv (classEnter path nm decorators n st) := by
  unfold classEnter
  dsimp only
  have h1 : PyInv { st with symbols := st.symbols ++
      ([⟨"class", nm, some (pathRepr path ++ "::" ++ nm), path, none⟩] :
        List PySym) } := by
    refine ⟨h.1, h.2.1, ?_⟩
    intro s hs
    rcases List.mem_append.mp hs with hs | hs
    · exact h.2.2 s hs
    · simp at hs
      subst hs
      exact Or.inr rfl
  have hdeco : ∀ r ∈ decorators.map (fun d =>
      (⟨"DECORATES", d, pathRepr path ++ "::" ++ nm⟩ : PRel)),
      r.rtype ≠ "OVERRIDES" := by
    intro r hr
    simp only [List.mem_map] at hr
    obtain ⟨d, _, hd⟩ := hr
    subst hd
    simp
  have h2 := pyInv_append_rels _ _ h1 hdeco
  have hbase : ∀ r ∈ (classBases n).1.map (fun base =>
      if (classBases n).2.contains base then
        (⟨"IMPLEMENTS", pathRepr path ++ "::" ++ nm, base⟩ : PRel)
      else ⟨"EXTENDS", pathRepr path ++ "::" ++ nm, base⟩),
      r.rtype ≠ "OVERRIDES" := by
    intro r hr
    simp only [List.mem_map] at hr
    obtain ⟨b, _, hb⟩ := hr
    subst hb
    split <;> simp
  have h3 := pyInv_append_rels _ _ h2 hbase
  refine ⟨?_, h3.2.1, h3.2.2⟩
  intro p hp
  dsimp only at hp
  split at hp
  · rcases List.mem_append.mp hp with hp | hp
    · exact h3.1 p hp
    · simp at hp
      rw [hp]
  · exact h3.1 p hp

theorem pyInv_scopePop (st : PyState) (h : PyInv st) : PyInv (scopePop st) := h

mutual
theorem walkNode_pyInv (path : Option String) (pctx : Option PCtx)
    (pt : Option String) (st : PyState) (n : TSNode) (h : PyInv st) :
    PyInv (walkNode path pctx pt st n) := by
  match n with
  | .mk nt tx cs =>
    simp only [walkNode]
    split
    · cases hname : firstChildTyped (TSNode.mk nt tx cs) ["identifier"] with
      | none =>
        exact walkChildren_pyInv path _ pt _ cs 0
          (pyInv_dispatchLeaf path pctx pt _ st h)
      | some nm =>
        dsimp only
        split
        · exact pyInv_scopePop _ (walkChildren_pyInv path _ (some "function") _ cs 0
            (pyInv_funcEnter path nm (decoratorsOf pctx) (asyncOf pctx) st h))
        · exact walkChildren_pyInv path _ pt _ cs 0
            (pyInv_dispatchLeaf path pctx pt _ st h)
    split
    · cases hname : firstChildTyped (TSNode.mk nt tx cs) ["identifier"] with
      | none =>
        exact walkChildren_pyInv path _ pt _ cs 0
          (pyInv_dispatchLeaf path pctx pt _ st h)
      | some nm =>
        dsimp only
        split
        · have hw := walkChildren_pyInv path (TSNode.mk nt tx cs) (some "class")
            (classEnter path nm (decoratorsOf pctx) (TSNode.mk nt tx cs) st) cs 0
            (pyInv_classEnter path nm (decoratorsOf pctx) (TSNode.mk nt tx cs) st h)
          exact ⟨hw.1, hw.2.1, hw.2.2⟩
        · exact walkChildren_pyInv path _ pt _ cs 0
            (pyInv_dispatchLeaf path pctx pt _ st h)
    exact walkChildren_pyInv path _ pt _ cs 0
      (pyInv_dispatchLeaf path pctx pt _ st h)
theorem walkChildren_pyInv (path : Option String) (parent : TSNode)
    (pt : Option String) (st : PyState) (cs : List TSNode) (idx : Nat)
    (h : PyInv st) : PyInv (walkChildren path parent pt st cs idx) := by
  match cs with
  | [] => simpa only [walkChildren] using h
  | c :: rest =>
    simp only [walkChildren]
    exact walkChildren_pyInv path parent pt _ rest (idx + 1)
      (walkNode_pyInv path (some ⟨parent, idx⟩) pt st c h)
end

/-- C2 (code bug).  The walk records every class under `class_methods`
with an *empty* method-name set and never adds a name to it, so the
`OVERRIDES` check `name in class_methods[current_class]` can never
succeed: no input whatsoever produces an `OVERRIDES` relation — contrary
to the claim (and to the code's own comments, `Store methods for OVERRIDES
detection`).  The second conjunct evaluates the claim's own scenario: a
subclass redeclaring a parent's method yields `USES` / `EXTENDS` relations
but no `OVERRIDES`. -/
theorem python_overrides_never_emitted :
    (∀ (path : Option String) (root : TSNode),
      ∀ r ∈ (pythonGrammarParse path root).relations, r.rtype ≠ "OVERRIDES") ∧
    ((pythonGrammarParse (some "t.py") pyOverrideInput).relations.map
        (fun r => r.rtype) =
      ["USES", "USES", "EXTENDS", "USES", "USES", "USES"]) := by
  constructor
  · intro path root r hr
    have hinv : PyInv (pythonGrammarParse path root) :=
      walkNode_pyInv path none none ⟨[pathOr path], [], none, [], []⟩ root
        ⟨fun p hp => absurd hp (List.not_mem_nil p),
         fun r hr => absurd hr (List.not_mem_nil r),
         fun s hs => absurd hs (List.not_mem_nil s)⟩
    exact hinv.2.1 r hr
  · decide

/-- Closed witness for C2: the no-OVERRIDES theorem applied at the
override scenario's first relation. -/
theorem python_overrides_never_emitted_witness :
    (⟨"USES", "t.py::A", "A"⟩ : PRel).rtype ≠ "OVERRIDES" :=
  python_overrides_never_emitted.1 (some "t.py") pyOverrideInput
    ⟨"USES", "t.py::A", "A"⟩ (by decide)

/-- C7 counterexample.  A call expression with an extractable callee at
module level produces neither `CALLS` nor `INSTANTIATES`: the branch is
guarded by `len(scope_stack) > 1`, which fails at module level, so the
claim as stated ("for every call expression with an extractable callee
name") is false. -/
theorem python_top_level_call_emits_nothing :
    calleeOf (TSNode.mk "call" "foo()"
      [.mk "identifier" "foo" [], .mk "argument_list" "()" []]) = some "foo" ∧
    (pythonGrammarParse (some "b.py") pyTopLevelCallInput).relations = [] := by
  exact ⟨by decide, by decide⟩

/-- C7 amended.  For a call node with an extractable, nonempty callee
encountered while the scope stack is deeper than the module scope, the
call branch appends exactly one relation from the current scope:
`INSTANTIATES` when the callee starts with an uppercase letter, `CALLS`
otherwise.  With a scope stack of depth ≤ 1 (module level) the branch
leaves the state unchanged. -/
theorem python_call_classification (n : TSNode) (st : PyState) (fn : String)
    (hfn : calleeOf n = some fn) (hne : fn ≠ "")
    (hdepth : st.scopeStack.length > 1) :
    handleCall n st = { st with relations := st.relations ++
      [⟨if startsUpper fn then "INSTANTIATES" else "CALLS", st.scopeTop, fn⟩] } ∧
    (∀ (m : TSNode) (st2 : PyState), st2.scopeStack.length ≤ 1 →
      handleCall m st2 = st2) := by
  constructor
  · unfold handleCall
    rw [hfn]
    dsimp only
    have hempty : fn.isEmpty = false := by
      cases hE : fn.isEmpty
      · rfl
      · exact absurd ((String.isEmpty_iff fn).mp hE) hne
    have hguard : (!fn.isEmpty && decide (st.scopeStack.length > 1)) = true := by
      simp [hempty, hdepth]
    rw [if_pos hguard]
    split <;> rfl
  · intro m st2 hd
    unfold handleCall
    cases calleeOf m with
    | none => rfl
    | some g =>
      dsimp only
      have hly : decide (st2.scopeStack.length > 1) = false := by
        simp only [decide_eq_false_iff_not]
        omega
      rw [hly, Bool.and_false, if_neg (by simp)]

/-- Closed witness for C7: a lowercase callee inside a function scope
yields a `CALLS` relation. -/
theorem python_call_classification_witness :
    handleCall (TSNode.mk "call" "foo()"
        [.mk "identifier" "foo" [], .mk "argument_list" "()" []])
      ⟨["b.py::g", "b.py"], [], none, [], []⟩ =
    ⟨["b.py::g", "b.py"], [], none, [],
      [⟨"CALLS", "b.py::g", "foo"⟩]⟩ := by
  have h := (python_call_classification
    (TSNode.mk "call" "foo()"
      [.mk "identifier" "foo" [], .mk "argument_list" "()" []])
    ⟨["b.py::g", "b.py"], [], none, [], []⟩ "foo" (by decide) (by decide)
    (by decide)).1
  simpa using h

theorem walkSymInv_jsLeaf (path : Option String)
    (requireArg : String → Option String) (n : TSNode) (st : WalkAcc)
    (h : WalkSymInv st) : WalkSymInv (jsLeaf path requireArg n st) := by
  have happend : ∀ (ty nm lang : String), ty = "function" ∨ ty = "class" →
      WalkSymInv { st with symbols := st.symbols ++
        ([⟨ty, nm, lang, none⟩] : List GSym) } := by
    intro ty nm lang hty s hs
    rcases List.mem_append.mp hs with hs | hs
    · exact h s hs
    · rw [List.mem_singleton] at hs
      subst hs
      exact hty
  unfold jsLeaf
  split
  · cases firstChildTyped n ["identifier"] with
    | none => exact h
    | some nm =>
      dsimp only
      split
      · exact happend _ _ _ (Or.inl rfl)
      · exact h
  split
  · cases firstChildTyped n ["identifier"] with
    | none => exact h
    | some nm =>
      dsimp only
      split
      · exact happend _ _ _ (Or.inr rfl)
      · exact h
  split
  · exact h
  split
  · cases requireArg n.text with
    | none => exact h
    | some m => exact h
  exact h

mutual
theorem walkSymInv_jsWalkNode (path : Option String)
    (requireArg : String → Option String) (st : WalkAcc) (n : TSNode)
    (h : WalkSymInv st) : WalkSymInv (jsWalkNode path requireArg st n) := by
  match n with
  | .mk nt tx cs =>
    simp only [jsWalkNode]
    exact walkSymInv_jsWalkChildren path requireArg _ cs
      (walkSymInv_jsLeaf path requireArg (TSNode.mk nt tx cs) st h)
theorem walkSymInv_jsWalkChildren (path : Option String)
    (requireArg : String → Option String) (st : WalkAcc) (cs : List TSNode)
    (h : WalkSymInv st) : WalkSymInv (jsWalkChildren path requireArg st cs) := by
  match cs with
  | [] => simpa only [jsWalkChildren] using h
  | c :: rest =>
    simp only [jsWalkChildren]
    exact walkSymInv_jsWalkChildren path requireArg _ rest
      (walkSymInv_jsWalkNode path requireArg st c h)
end

theorem walkSymInv_phpLeaf (path : Option String) (n : TSNode) (st : WalkAcc)
    (h : WalkSymInv st) : WalkSymInv (phpLeaf path n st) := by
  have happend : ∀ (ty nm lang : String), ty = "function" ∨ ty = "class" →
      WalkSymInv { st with symbols := st.symbols ++
        ([⟨ty, nm, lang, none⟩] : List GSym) } := by
    intro ty nm lang hty s hs
    rcases List.mem_append.mp hs with hs | hs
    · exact h s hs
    · rw [List.mem_singleton] at hs
      subst hs
      exact hty
  unfold phpLeaf
  split
  · cases firstChildTyped n ["name", "identifier"] with
    | none => exact h
    | some nm =>
      dsimp only
      split
      · exact happend _ _ _ (Or.inl rfl)
      · exact h
  split
  · cases firstChildTyped n ["name", "identifier"] with
    | none => exact h
    | some nm =>
      dsimp only
      split
      · exact happend _ _ _ (Or.inr rfl)
      · exact h
  split
  · exact h
  exact h

mutual
theorem walkSymInv_phpWalkNode (path : Option String) (st : WalkAcc)
    (n : TSNode) (h : WalkSymInv st) : WalkSymInv (phpWalkNode path st n) := by
  match n with
  | .mk nt tx cs =>
    simp only [phpWalkNode]
    exact walkSymInv_phpWalkChildren path _ cs
      (walkSymInv_phpLeaf path (TSNode.mk nt tx cs) st h)
theorem walkSymInv_phpWalkChildren (path : Option String) (st : WalkAcc)
    (cs : List TSNode) (h : WalkSymInv st) :
    WalkSymInv (phpWalkChildren path st cs) := by
  match cs with
  | [] => simpa only [phpWalkChildren] using h
  | c :: rest =>
    simp only [phpWalkChildren]
    exact walkSymInv_phpWalkChildren path _ rest
      (walkSymInv_phpWalkNode path st c h)
end

theorem jsParse_symbol_types (tsTree : Option TSNode)
    (requireArg : String → Option String) (path : Option String)
    (fb : JSFallback) :
    ∀ s ∈ (jsParse tsTree requireArg path fb).symbols,
      s.stype = "function" ∨ s.stype = "class" := by
  cases tsTree with
  | some root =>
    intro s hs
    exact walkSymInv_jsWalkNode path requireArg ⟨[], []⟩ root
      (fun s hs => absurd hs (List.not_mem_nil s)) s hs
  | none =>
    intro s hs
    simp only [jsParse] at hs
    rcases List.mem_append.mp hs with hs | hs <;>
      · obtain ⟨m, _, hm⟩ := List.mem_map.mp hs
        subst hm
        simp

/-- C6 counterexample.  The Vue extractor forwards the delegated JS
symbols unchanged, so parsing a `.vue` file with a script-block function
yields a symbol of type `function` — not a member of the Vue ontology's
declared node-type set `{component}`.  The claim "every emitted symbol's
type is a member of the declared ontology's node-type set" is false for
the component-template extractor. -/
theorem vue_symbol_type_outside_ontology :
    (vueDemoResult.symbols.map (fun s => s.stype)) = ["function", "component"] ∧
    ¬ ("function" ∈ vueNodeTypes) := by
  exact ⟨by decide, by decide⟩

theorem vueScriptPart_symbols_mem (path : Option String) (vm : VueMatches)
    (jsTs : Option TSNode) (requireArg : String → Option String)
    (jsFb : JSFallback) (s : GSym)
    (hs : s ∈ (vueScriptPart path vm jsTs requireArg jsFb).symbols) :
    s ∈ (jsParse jsTs requireArg path jsFb).symbols := by
  unfold vueScriptPart at hs
  split at hs
  · simpa using hs
  · simp at hs

theorem vueParse_symbols_cases (path : Option String) (vm : VueMatches)
    (jsTs : Option TSNode) (requireArg : String → Option String)
    (jsFb : JSFallback) :
    ∀ s ∈ (vueParse path vm jsTs requireArg jsFb).symbols,
      s ∈ (jsParse jsTs requireArg path jsFb).symbols ∨
        s.stype = "component" := by
  intro s hs
  unfold vueParse at hs
  dsimp only at hs
  split at hs
  · split at hs
    · rcases List.mem_append.mp hs with hs | hs
      · exact Or.inl (vueScriptPart_symbols_mem path vm jsTs requireArg jsFb s hs)
      · rw [List.mem_singleton] at hs
        subst hs
        exact Or.inr rfl
    · exact Or.inl (vueScriptPart_symbols_mem path vm jsTs requireArg jsFb s hs)
  · exact Or.inl (vueScriptPart_symbols_mem path vm jsTs requireArg jsFb s hs)

/-- C6 amended.  For every extractor except the component-template (Vue)
one, every emitted symbol's type belongs to the declared ontology's
node-type set — on both the grammar and the fallback path where both
exist; the Vue extractor's own symbols have type `component`, but it also
forwards the delegated script-block symbols, whose types lie in the *JS*
ontology's node-type set rather than in Vue's declared `{component}`. -/
theorem symbol_types_in_ontology_except_vue :
    (∀ (path : Option String) (root : TSNode),
      ∀ s ∈ (pythonGrammarParse path root).symbols, s.stype ∈ pythonNodeTypes) ∧
    (∀ (fm cm : List String),
      ∀ s ∈ pythonFallbackSymbols fm cm, s.stype ∈ pythonNodeTypes) ∧
    (∀ (tsTree : Option TSNode) (requireArg : String → Option String)
        (path : Option String) (fb : JSFallback),
      ∀ s ∈ (jsParse tsTree requireArg path fb).symbols,
        s.stype ∈ javascriptNodeTypes) ∧
    (∀ (tsTree : Option TSNode) (path : Option String) (fb : PHPFallback),
      ∀ s ∈ (phpParse tsTree path fb).symbols, s.stype ∈ phpNodeTypes) ∧
    (∀ (path : Option String) (m : BashMatches),
      ∀ s ∈ (bashParse path m).symbols, s.stype ∈ bashNodeTypes) ∧
    (∀ (path : Option String) (m : CMatches),
      ∀ s ∈ (cParse path m).symbols, s.stype ∈ cNodeTypes) ∧
    (∀ (path : Option String) (m : RustMatches),
      ∀ s ∈ (rustParse path m).symbols, s.stype ∈ rustNodeTypes) ∧
    (∀ (path : Option String) (vm : VueMatches) (jsTs : Option TSNode)
        (requireArg : String → Option String) (jsFb : JSFallback),
      ∀ s ∈ (vueParse path vm jsTs requireArg jsFb).symbols,
        s.stype ∈ vueNodeTypes ∨ s.stype ∈ javascriptNodeTypes) := by
  refine ⟨?_, ?_, ?_, ?_, ?_, ?_, ?_, ?_⟩
  · intro path root s hs
    have hinv : PyInv (pythonGrammarParse path root) :=
      walkNode_pyInv path none none ⟨[pathOr path], [], none, [], []⟩ root
        ⟨fun p hp => absurd hp (List.not_mem_nil p),
         fun r hr => absurd hr (List.not_mem_nil r),
         fun s hs => absurd hs (List.not_mem_nil s)⟩
    rcases hinv.2.2 s hs with h | h <;> simp [pythonNodeTypes, h]
  · intro fm cm s hs
    unfold pythonFallbackSymbols at hs
    rcases List.mem_append.mp hs with hs | hs <;>
      · obtain ⟨m, _, hm⟩ := List.mem_map.mp hs
        subst hm
        simp [pythonNodeTypes]
  · intro tsTree requireArg path fb s hs
    rcases jsParse_symbol_types tsTree requireArg path fb s hs with h | h <;>
      simp [javascriptNodeTypes, h]
  · intro tsTree path fb s hs
    cases tsTree with
    | some root =>
      rcases walkSymInv_phpWalkNode path ⟨[], []⟩ root
        (fun s hs => absurd hs (List.not_mem_nil s)) s hs with h | h <;>
        simp [phpNodeTypes, h]
    | none =>
      simp only [phpParse] at hs
      rcases List.mem_append.mp hs with hs | hs <;>
        · obtain ⟨m, _, hm⟩ := List.mem_map.mp hs
          subst hm
          simp [phpNodeTypes]
  · intro path m s hs
    unfold bashParse at hs
    dsimp only at hs
    rcases List.mem_append.mp hs with hs | hs
    · rcases List.mem_append.mp hs with hs | hs <;>
        · obtain ⟨f, _, hf⟩ := List.mem_map.mp hs
          subst hf
          simp [bashNodeTypes]
    · obtain ⟨v, _, hv⟩ := List.mem_map.mp hs
      subst hv
      simp [bashNodeTypes]
  · intro path m s hs
    unfold cParse at hs
    dsimp only at hs
    rcases List.mem_append.mp hs with hs | hs <;>
      · obtain ⟨f, _, hf⟩ := List.mem_map.mp hs
        subst hf
        simp [cNodeTypes]
  · intro path m s hs
    unfold rustParse at hs
    dsimp only at hs
    rcases List.mem_append.mp hs with hs | hs
    · rcases List.mem_append.mp hs with hs | hs
      · rcases List.mem_append.mp hs with hs | hs <;>
          · obtain ⟨p, _, hp⟩ := List.mem_map.mp hs
            subst hp
            simp [rustNodeTypes]
      · obtain ⟨p, _, hp⟩ := List.mem_map.mp hs
        subst hp
        simp [rustNodeTypes]
    · obtain ⟨p, _, hp⟩ := List.mem_map.mp hs
      subst hp
      simp [rustNodeTypes]
  · intro path vm jsTs requireArg jsFb s hs
    rcases vueParse_symbols_cases path vm jsTs requireArg jsFb s hs with h | h
    · rcases jsParse_symbol_types jsTs requireArg path jsFb s h with h2 | h2 <;>
        · right
          simp [javascriptNodeTypes, h2]
    · left
      simp [vueNodeTypes, h]

/-- Closed witness for C6 (amended): the Python-grammar part applied at
the override scenario's class symbol. -/
theorem symbol_types_in_ontology_except_vue_witness :
    (⟨"class", "A", some "t.py::A", some "t.py", none⟩ : PySym).stype ∈
      pythonNodeTypes :=
  symbol_types_in_ontology_except_vue.1 (some "t.py") pyOverrideInput
    ⟨"class", "A", some "t.py::A", some "t.py", none⟩ (by decide)

/-! #### Fallback warning diagnostics (C8) -/

/-- C8 counterexample.  The shell extractor is regex-only and never
attaches any diagnostic: its parse result for a file declaring a function
has an empty diagnostics list, so no `warning` entry announces degraded
coverage even though the grammar engine is unavailable for it. -/
theorem bash_parse_has_no_warning :
    (bashParse (some "s.sh") ⟨["f"], [], [], []⟩).diagnostics = [] ∧
    (bashParse (some "s.sh") ⟨["f"], [], [], []⟩).symbols.map (fun s => s.stype) =
      ["function"] := by
  exact ⟨by decide, by decide⟩

/-- C8 amended.  The three extractors that have a grammar path with a
regex fallback (Python, JS, PHP) do, when the grammar engine is
unavailable, return exactly one `warning` diagnostic announcing the
fallback and still extract a function symbol per function match, a class
symbol per class match, and an import/include relation per import match;
the always-regex extractors (bash, C, rust) never attach any diagnostic. -/
theorem fallback_warning_and_extraction :
    (∀ (path : Option String) (fm cm im : List String),
      (pythonParse none path fm cm im).diagnostics =
        [⟨"warning", "tree-sitter not available; using regex fallback"⟩] ∧
      (∀ m ∈ fm, (⟨"function", m, none, none, none⟩ : PySym) ∈
        (pythonParse none path fm cm im).symbols) ∧
      (∀ m ∈ cm, (⟨"class", m, none, none, none⟩ : PySym) ∈
        (pythonParse none path fm cm im).symbols) ∧
      (∀ m ∈ im, (⟨"IMPORTS", pathOr path, pyStrip m⟩ : PRel) ∈
        (pythonParse none path fm cm im).relations)) ∧
    (∀ (requireArg : String → Option String) (path : Option String)
        (fb : JSFallback),
      (jsParse none requireArg path fb).diagnostics =
        [⟨"warning", "tree-sitter not available; using regex fallback"⟩] ∧
      (∀ m ∈ fb.functions, (⟨"function", m, "javascript", none⟩ : GSym) ∈
        (jsParse none requireArg path fb).symbols) ∧
      (∀ m ∈ fb.classes, (⟨"class", m, "javascript", none⟩ : GSym) ∈
        (jsParse none requireArg path fb).symbols) ∧
      (∀ m ∈ fb.imports, (⟨"IMPORTS", pathOr path, m⟩ : PRel) ∈
        (jsParse none requireArg path fb).relations)) ∧
    (∀ (path : Option String) (fb : PHPFallback),
      (phpParse none path fb).diagnostics =
        [⟨"warning", "tree-sitter not available; using regex fallback"⟩] ∧
      (∀ m ∈ fb.functions, (⟨"function", m, "php", none⟩ : GSym) ∈
        (phpParse none path fb).symbols) ∧
      (∀ m ∈ fb.classes, (⟨"class", m, "php", none⟩ : GSym) ∈
        (phpParse none path fb).symbols) ∧
      (∀ m ∈ fb.includes, (⟨"INCLUDES", pathOr path, m⟩ : PRel) ∈
        (phpParse none path fb).relations)) ∧
    (∀ (path : Option String) (m : BashMatches),
      (bashParse path m).diagnostics = []) ∧
    (∀ (path : Option String) (m : CMatches),
      (cParse path m).diagnostics = []) ∧
    (∀ (path : Option String) (m : RustMatches),
      (rustParse path m).diagnostics = []) := by
  refine ⟨?_, ?_, ?_, fun _ _ => rfl, fun _ _ => rfl, fun _ _ => rfl⟩
  · intro path fm cm im
    refine ⟨rfl, ?_, ?_, ?_⟩
    · intro m hm
      exact List.mem_append_left _ (List.mem_map_of_mem _ hm)
    · intro m hm
      exact List.mem_append_right _ (List.mem_map_of_mem _ hm)
    · intro m hm
      exact List.mem_map_of_mem _ hm
  · intro requireArg path fb
    refine ⟨rfl, ?_, ?_, ?_⟩
    · intro m hm
      exact List.mem_append_left _ (List.mem_map_of_mem _ hm)
    · intro m hm
      exact List.mem_append_right _ (List.mem_map_of_mem _ hm)
    · intro m hm
      exact List.mem_append_left _ (List.mem_map_of_mem _ hm)
  · intro path fb
    refine ⟨rfl, ?_, ?_, ?_⟩
    · intro m hm
      exact List.mem_append_left _ (List.mem_map_of_mem _ hm)
    · intro m hm
      exact List.mem_append_right _ (List.mem_map_of_mem _ hm)
    · intro m hm
      exact List.mem_map_of_mem _ hm

/-- Closed witness for C8 (amended): the Python fallback on one function
match keeps the warning diagnostic. -/
theorem fallback_warning_and_extraction_witness :
    (pythonParse none (some "a.py") ["foo"] [] []).diagnostics =
      [⟨"warning", "tree-sitter not available; using regex fallback"⟩] :=
  (fallback_warning_and_extraction.1 (some "a.py") ["foo"] [] []).1

end ContextMachine

